import Mathlib

/-!
Verification of the mark feature writer of ufo2ft
(`Lib/ufo2ft/featureWriters/markFeatureWriter.py`).

The Python functions are shallowly embedded as executable Lean definitions:

* Python strings are `String` (operated on through their `List Char` data);
* Python `dict`s (which preserve insertion order, and keep the original key
  position when a value is overwritten) are association lists
  `List (key × value)` with `dictGet`/`dictSet`;
* Python `set`s are lists used only through membership;
* Python exceptions (`ValueError`, failed `assert`) are `Except String`.

Coordinates are integers (`otRound` of the sources is the identity on them).
-/

namespace MarkFeature

/-! ## Ordered-dict helpers (Python `dict` semantics) -/

/-- `d.get(k)`: first (and, for dicts, only) binding of `k`. -/
def dictGet {α β : Type} [DecidableEq α] : List (α × β) → α → Option β
  | [], _ => none
  | (k0, v0) :: rest, k => if k = k0 then some v0 else dictGet rest k

/-- `d[k] = v`: overwrite the binding of `k` in place if present (a Python dict
keeps the key's original position), else append a new binding at the end. -/
def dictSet {α β : Type} [DecidableEq α] : List (α × β) → α → β → List (α × β)
  | [], k, v => [(k, v)]
  | (k0, v0) :: rest, k, v =>
    if k = k0 then (k0, v) :: rest else (k0, v0) :: dictSet rest k v

/-- `d.setdefault(k, []).append(a)`: append `a` to the list bound to `k`,
starting from the empty list when `k` is unbound. -/
def dictAppend {α β : Type} [DecidableEq α] (d : List (α × List β)) (k : α) (a : β) :
    List (α × List β) :=
  dictSet d k (((dictGet d k).getD []) ++ [a])

/-- First-occurrence deduplication (the key order of a Python dict built by
repeated insertion), with an accumulator of already-seen elements. -/
def dedupSeen {α : Type} [DecidableEq α] (seen : List α) : List α → List α
  | [] => []
  | x :: rest => if x ∈ seen then dedupSeen seen rest else x :: dedupSeen (x :: seen) rest

/-- Deduplicate a list keeping the first occurrence of each element. -/
def dedupKeepFirst {α : Type} [DecidableEq α] (l : List α) : List α :=
  dedupSeen [] l

/-! ## `parseAnchorName`

The source is called here with its default arguments: `markPrefix = "_"`,
`ligaSeparator = "_"`, `ligaNumRE = r".*?(\d+)$"`, `ignoreRE = None` and
`libData = None` (so the contextual-anchor branch is never taken and
`isContextual` is always `False`).  The regex `.*?(\d+)$` matches exactly when
the name ends in a digit, and then captures the maximal trailing run of
digits; `anchorName.rstrip(number)` removes exactly that trailing run. -/

/-- `int(...)` on a string of decimal digits. -/
def digitsToNat (ds : List Char) : Nat :=
  ds.foldl (fun n c => 10 * n + (c.toNat - '0'.toNat)) 0

/-- `key and not key[0].isalpha()`, coerced to a boolean: an empty key is
falsy, so the whole expression is falsy (never `True`) for an empty key. -/
def isIgnorableKey : List Char → Bool
  | [] => false
  | c :: _ => !c.isAlpha

/-- Result tuple of `parseAnchorName`:
`(isMark, key, number, isContextual, isIgnorable)`. -/
structure AnchorParse where
  isMark : Bool
  key : String
  number : Option Nat
  isContextual : Bool
  isIgnorable : Bool
deriving Repr, DecidableEq

/-- The second half of `parseAnchorName` (lines 162-174), after the ligature
number and candidate key have been computed: the mark-prefix check
`if anchorName.startswith(markPrefix) and key:` with its two `ValueError`s,
and the final `isIgnorable` computation. -/
def parseMarkStage (anchorName : String) (cs key : List Char) (number : Option Nat) :
    Except String AnchorParse :=
  if cs.head? = some '_' ∧ key ≠ [] then
    if number.isSome then
      .error ("mark anchor cannot be numbered: " ++ anchorName)
    else
      -- `key = key[len(markPrefix):]`
      let key2 := key.drop 1
      if key2.isEmpty then
        .error ("mark anchor key is nil: " ++ anchorName)
      else
        .ok ⟨true, ⟨key2⟩, none, false, isIgnorableKey key2⟩
  else
    .ok ⟨false, ⟨key⟩, number, false, isIgnorableKey key⟩

/-- Embedding of `parseAnchorName` (markFeatureWriter.py lines 117-174) at its
default arguments.  `ValueError` is `Except.error`; the out-of-range access
`anchorName[0]` on an empty name is also an error. -/
def parseAnchorName (anchorName : String) : Except String AnchorParse :=
  let cs := anchorName.data
  if cs.isEmpty then
    .error ("string index out of range: " ++ anchorName)
  else
    -- `m = ligaNumRE.match(anchorName)`: trailing digit run, if any
    let digits := (cs.reverse.takeWhile Char.isDigit).reverse
    let keyNum : List Char × Option Nat :=
      if digits.isEmpty then
        (cs, none)
      else
        -- `key = anchorName.rstrip(number)`
        let stripped := (cs.reverse.dropWhile Char.isDigit).reverse
        -- `if key.endswith(separator)` with separator `"_"`
        if stripped.getLast? = some '_' then
          (stripped.dropLast, some (digitsToNat digits))
        else
          -- not a valid ligature anchor name
          (cs, none)
    parseMarkStage anchorName cs keyNum.1 keyNum.2

/-! ## `NamedAnchor` -/

/-- A mark class: `fontTools.feaLib` `MarkClass` restricted to what the writer
uses — a name and an ordered `glyphs` dict mapping each member glyph name to
the anchor coordinates of its definition. -/
structure MarkClass where
  name : String
  glyphs : List (String × (Int × Int))
deriving Repr, DecidableEq

/-- A `NamedAnchor` (markFeatureWriter.py lines 177-230). -/
structure NamedAnchor where
  name : String
  x : Int
  y : Int
  isMark : Bool
  key : String
  number : Option Nat
  markClass : Option MarkClass
  isContextual : Bool
  isIgnorable : Bool
deriving Repr, DecidableEq

/-- `NamedAnchor.__init__` (lines 199-222): parse the name (propagating its
errors), reject component numbers below 1, and assert a non-empty key when
there is no number. -/
def mkNamedAnchor (name : String) (x y : Int) : Except String NamedAnchor :=
  match parseAnchorName name with
  | .error e => .error e
  | .ok p =>
    match p.number with
    | some n =>
      if n < 1 then .error "ligature component indexes must start from 1"
      else .ok ⟨name, x, y, p.isMark, p.key, p.number, none, p.isContextual, p.isIgnorable⟩
    | none =>
      -- `assert key, name`
      if p.key = "" then .error ("assert failed: " ++ name)
      else .ok ⟨name, x, y, p.isMark, p.key, p.number, none, p.isContextual, p.isIgnorable⟩

/-- `markAnchorName` property: `markPrefix + key`. -/
def markAnchorNameOf (a : NamedAnchor) : String :=
  "_" ++ a.key

/-! ## `firstAvailable` and `colorGraph`

`colorGraph` in the source is generic in the (sortable, hashable) vertex
type; the embedding is generic in a linearly ordered vertex type `V`.  The
adjacency dict is an association list; neighbour iterables and colour sets
are lists used only through membership. -/

/-- Bounded search loop of `firstAvailable`: try `count`, `count+1`, … while
the candidate is in the colour set, with enough fuel to find the answer. -/
def firstAvailableFrom (colorSet : List Nat) : Nat → Nat → Nat
  | 0, count => count
  | fuel + 1, count =>
    if count ∈ colorSet then firstAvailableFrom colorSet fuel (count + 1) else count

/-- Upper bound of a list of naturals (0 for the empty list). -/
def natMaxList (l : List Nat) : Nat :=
  l.foldr max 0

/-- `firstAvailable` (lines 259-265): smallest non-negative integer not in the
given colour set.  The unbounded `while` loop of the source terminates after
at most `natMaxList colorSet + 2` iterations, which is the fuel used here. -/
def firstAvailable (colorSet : List Nat) : Nat :=
  firstAvailableFrom colorSet (natMaxList colorSet + 2) 0

variable {V : Type}

/-- `adjacency[node]` with the convention that a vertex absent from the dict
has no neighbours. -/
def adjOf [DecidableEq V] (A : List (V × List V)) (v : V) : List V :=
  (dictGet A v).getD []

/-- One iteration of the colouring loop: colour `node` with the first colour
not used by an already-coloured neighbour. -/
def greedyStep [DecidableEq V] (A : List (V × List V)) (colors : List (V × Nat))
    (node : V) : List (V × Nat) :=
  colors ++ [(node, firstAvailable ((adjOf A node).filterMap (dictGet colors)))]

/-- The colouring loop of `colorGraph`: vertices in sorted order
(`for node in sorted(adjacency)`), colours accumulated in insertion order. -/
def greedyColors [DecidableEq V] [LinearOrder V] (A : List (V × List V)) :
    List (V × Nat) :=
  (List.insertionSort (· ≤ ·) (A.map Prod.fst)).foldl (greedyStep A) []

/-- `colorGraph` (lines 233-256): greedy colouring, then the colour classes in
first-appearance order of each colour (`defaultdict` grouping). -/
def colorGraph [DecidableEq V] [LinearOrder V] (A : List (V × List V)) :
    List (List V) :=
  let colors := greedyColors A
  (dedupKeepFirst (colors.map Prod.snd)).map
    (fun c => (colors.filter (fun p => decide (p.2 = c))).map Prod.fst)

/-- The complete graph on vertices `0, …, k-1`, as an adjacency dict. -/
def completeAdjacency (k : Nat) : List (Nat × List Nat) :=
  (List.range k).map (fun i => (i, (List.range k).filter (fun j => decide (j ≠ i))))

/-- A colour assignment is proper for `A` when no two distinct adjacent
vertices receive the same colour. -/
def ProperColoring [DecidableEq V] (A : List (V × List V)) (colors : List (V × Nat)) : Prop :=
  ∀ u cu v cv, (u, cu) ∈ colors → (v, cv) ∈ colors → u ≠ v → u ∈ adjOf A v → cu ≠ cv

/-! ## Attachments (`AbstractMarkPos` and subclasses)

`MarkToBasePos` and `MarkToMarkPos` hold a flat list of anchors;
`MarkToLigaPos` holds one anchor list per ligature component.  Only the
pieces used by `_groupAttachments` are embedded: `filter` and the
glyph-to-mark-class enumeration (the AST conversion is out of scope). -/

inductive MarkPos where
  | base (name : String) (marks : List NamedAnchor)
  | liga (name : String) (marks : List (List NamedAnchor))
deriving Repr, DecidableEq

/-- The attached (base or ligature) glyph of an attachment. -/
def MarkPos.glyphName : MarkPos → String
  | .base n _ => n
  | .liga n _ => n

/-- `AbstractMarkPos.filter` / `MarkToLigaPos._filterMarks` (lines 58-60 and
82-86): keep the anchors accepted by `inc`; return `None` when nothing is
left (`any(marks)` is false). -/
def MarkPos.filterPos (inc : NamedAnchor → Bool) : MarkPos → Option MarkPos
  | .base n ms =>
    let ms2 := ms.filter inc
    if ms2.isEmpty then none else some (.base n ms2)
  | .liga n ms =>
    let ms2 := ms.map (fun comp => comp.filter inc)
    if ms2.all (·.isEmpty) then none else some (.liga n ms2)

/-- All anchors of an attachment (for a ligature, of all components). -/
def MarkPos.anchors : MarkPos → List NamedAnchor
  | .base _ ms => ms
  | .liga _ ms => ms.flatten

/-- `anchor.markClass.name` (the empty string standing for a missing class;
upstream construction never leaves `markClass` unset here). -/
def anchorClassName (a : NamedAnchor) : String :=
  (a.markClass.map MarkClass.name).getD ""

/-- The member glyphs of `anchor.markClass` (`markClass.glyphs` keys). -/
def anchorClassGlyphs (a : NamedAnchor) : List String :=
  (a.markClass.map (fun mc => mc.glyphs.map Prod.fst)).getD []

/-- All anchors of a list of attachments. -/
def allAnchors (atts : List MarkPos) : List NamedAnchor :=
  atts.flatMap MarkPos.anchors

/-! ## `_groupMarkClasses` and `_groupAttachments`

The `markGlyphToMarkClasses` dict of the source (mark glyph → set of mark
class names, aggregated over `getMarkGlyphToMarkClasses` of every
attachment) is only consumed to build the conflict graph, so the graph is
built here directly: two class names conflict when one mark glyph belongs to
both classes; the vertices are the class names owning at least one glyph.
Sets are modelled up to membership. -/

/-- Conflict test: some anchor of class `u` and some anchor of class `v`
(among the given attachments) share a member mark glyph. -/
def conflictB (atts : List MarkPos) (u v : String) : Bool :=
  (allAnchors atts).any fun a1 =>
    decide (anchorClassName a1 = u) &&
      (allAnchors atts).any fun a2 =>
        decide (anchorClassName a2 = v) &&
          (anchorClassGlyphs a1).any fun g => decide (g ∈ anchorClassGlyphs a2)

/-- Vertices of the conflict graph: the mark class names that appear with at
least one member glyph in some attachment (the keys of the
`markGlyphToMarkClasses` value sets). -/
def classVertices (atts : List MarkPos) : List String :=
  dedupKeepFirst
    (((allAnchors atts).filter (fun a => !(anchorClassGlyphs a).isEmpty)).map anchorClassName)

/-- The `adjacency` dict built at lines 523-533. -/
def adjacencyOf (atts : List MarkPos) : List (String × List String) :=
  (classVertices atts).map fun v =>
    (v, (classVertices atts).filter (fun u => decide (u ≠ v) && conflictB atts u v))

/-- `self.anchorSortKey` lookup with default 0. -/
def anchorSortKeyMap (s : String) : Int :=
  if s = "_bottom" then -2 else if s = "_top" then -1 else 0

/-- `min` of a non-empty list (the empty case never arises: colour groups are
non-empty). -/
def minIntList : List Int → Int
  | [] => 0
  | x :: xs => xs.foldl min x

/-- The first component of the group sort key at lines 542-554:
`-min(anchorSortKey.get(markClass[len("MC"):], 0) for markClass in group)`. -/
def groupSortKey (group : List String) : Int :=
  -(minIntList (group.map (fun mc => anchorSortKeyMap (mc.drop 2))))

/-- Lexicographic comparison of string lists (Python list comparison). -/
def listStrLE : List String → List String → Bool
  | [], _ => true
  | _ :: _, [] => false
  | a :: as, b :: bs => if a < b then true else if a = b then listStrLE as bs else false

/-- Comparison of colour groups by the sort key
`(groupSortKey group, group)`. -/
def groupLEb (g1 g2 : List String) : Bool :=
  if groupSortKey g1 < groupSortKey g2 then true
  else if groupSortKey g1 = groupSortKey g2 then listStrLE g1 g2
  else false

/-- `_groupMarkClasses` (lines 513-558): colour the conflict graph, sort each
group, and sort the groups by `(groupSortKey, group)`. -/
def groupMarkClassesFn (atts : List MarkPos) : List (List String) :=
  List.insertionSort (fun g1 g2 => groupLEb g1 g2 = true)
    ((colorGraph (adjacencyOf atts)).map (List.insertionSort (· ≤ ·)))

/-- Lexicographic string comparison through the character lists (Python's
string `<=`), used so that sorting computes by kernel reduction;
`strLE_iff_le` below identifies it with the `String` order. -/
def strLE (a b : String) : Bool :=
  decide (a.data ≤ b.data)

/-- The `groupedMarkClasses` of the `groupMarkClasses=False` branch (lines
597-600): one singleton group per mark class of `self.context.markClasses`
(an anchor-key → class dict), iterated in sorted key order. -/
def groupedMarkClassesDefault (ctx : List (String × MarkClass)) : List (List String) :=
  (List.insertionSort (fun a b => strLE a.1 b.1 = true) ctx).map (fun e => [e.2.name])

/-- `_groupAttachments` (lines 564-617): one lookup per mark class group,
each lookup keeping of every attachment the anchors whose mark class name is
in the group (empty filter results dropped, empty lookups kept). -/
def groupAttachments (groupMarkClasses : Bool) (ctx : List (String × MarkClass))
    (atts : List MarkPos) : List (List MarkPos) :=
  let groupedMarkClasses :=
    if groupMarkClasses then groupMarkClassesFn atts else groupedMarkClassesDefault ctx
  groupedMarkClasses.map fun markClasses =>
    atts.filterMap fun att =>
      att.filterPos (fun a => decide (anchorClassName a ∈ markClasses))

/-! ## `_defineMarkClass` -/

/-- An `ast.MarkClassDefinition`: one `(class, anchor, glyph)` statement. -/
structure MarkClassDefinitionE where
  className : String
  glyphName : String
  anchor : Int × Int
deriving Repr, DecidableEq

/-- Length of the longest class name bound in the registry. -/
def maxNameLen (markClasses : List (String × MarkClass)) : Nat :=
  markClasses.foldr (fun e m => max e.1.length m) 0

/-- Modelled from the spec: `ast.makeFeaClassName` (from
`ufo2ft/featureWriters/ast.py`, not under `src/`) "allocate[s] a new
uniquely-suffixed class name" distinct from every existing class name.  The
exact suffix scheme is not in the sources; it is modelled as appending a
non-empty suffix long enough that the result is longer than (hence distinct
from) every existing class name. -/
def makeFeaClassName (name : String) (markClasses : List (String × MarkClass)) : String :=
  name ++ "_" ++ String.mk (List.replicate (maxNameLen markClasses + 1) '1')

/-- `_defineMarkClass` (lines 470-495).  The registry `markClasses`
(class-name → class dict) is threaded explicitly; the result is the returned
`MarkClassDefinition` (or `None`) together with the updated registry.
`_anchorsAreEqual` compares the `x`/`y` coordinates (the other attributes
are always `None` for anchors built by this writer). -/
def defineMarkClass (glyphName : String) (x y : Int) (className : String)
    (markClasses : List (String × MarkClass)) :
    Option MarkClassDefinitionE × List (String × MarkClass) :=
  let anchor : Int × Int := (x, y)
  match dictGet markClasses className with
  | none =>
    -- class does not exist yet: create it and add the definition
    let mc : MarkClass := ⟨className, [(glyphName, anchor)]⟩
    (some ⟨className, glyphName, anchor⟩, dictSet markClasses className mc)
  | some mc =>
    match dictGet mc.glyphs glyphName with
    | some a0 =>
      if a0 = anchor then
        -- glyph already defined with equal anchor: skip
        (none, markClasses)
      else
        -- same glyph, different anchor: make a new unique markClass
        let newClassName := makeFeaClassName className markClasses
        let newMc : MarkClass := ⟨newClassName, [(glyphName, anchor)]⟩
        (some ⟨newClassName, glyphName, anchor⟩, dictSet markClasses newClassName newMc)
    | none =>
      -- add the definition to the existing class
      let mc2 : MarkClass := ⟨mc.name, dictSet mc.glyphs glyphName anchor⟩
      (some ⟨mc.name, glyphName, anchor⟩, dictSet markClasses className mc2)

/-! ## `_makeMarkToLigaAttachments` -/

/-- The filtering conditions of the anchor loop at lines 684-701: an anchor
is bucketed iff it is not skipped by the three `continue`s.  (The
`assert not anchor.isMark` of the source cannot fire there: a mark anchor
never has a mark class assigned and never has an empty key, so it is skipped
by the first `continue`; the theorems below assume as much.) -/
def keptLigaAnchor (a : NamedAnchor) : Bool :=
  !(a.markClass.isNone && decide (a.key ≠ "")) && a.number.isSome && !a.isContextual

/-- One anchor of the loop at lines 684-701: skip anchors without a mark
class (unless null-keyed), without a component number, or contextual; an
empty-key numbered anchor overwrites its component with `[]`, a keyed one
appends to its component's list. -/
def ligaStep (d : List (Nat × List NamedAnchor)) (a : NamedAnchor) :
    List (Nat × List NamedAnchor) :=
  if a.markClass.isNone && decide (a.key ≠ "") then d
  else
    match a.number with
    | none => d
    | some number =>
      if a.isContextual then d
      else if a.key = "" then dictSet d number []
      else dictAppend d number a

/-- The `componentAnchors` dict built by the anchor loop (lines 683-701). -/
def ligaComponentFold (anchors : List NamedAnchor) : List (Nat × List NamedAnchor) :=
  anchors.foldl ligaStep []

/-- `max(componentAnchors.keys())` (0 for an empty dict, which the caller
rules out). -/
def maxKeys (d : List (Nat × List NamedAnchor)) : Nat :=
  natMaxList (d.map Prod.fst)

/-- The `ligatureMarks` component list of lines 704-708: one entry per
component index from 1 to the maximum observed, any missing index yielding
the empty placeholder (`<anchor NULL>`). -/
def ligaMarksOf (anchors : List NamedAnchor) : List (List NamedAnchor) :=
  (List.range' 1 (maxKeys (ligaComponentFold anchors))).map
    (fun n => (dictGet (ligaComponentFold anchors) n).getD [])

/-- `_makeMarkToLigaAttachments` (lines 673-710), with the anchor lists, the
set of mark glyph names and the optional GDEF ligature class as explicit
inputs. -/
def makeMarkToLigaAttachments (anchorLists : List (String × List NamedAnchor))
    (markGlyphNames : List String) (ligatureClass : Option (List String)) :
    List MarkPos :=
  anchorLists.foldl
    (fun result e =>
      let skip : Bool :=
        decide (e.1 ∈ markGlyphNames) ||
          (match ligatureClass with
           | some lc => decide (e.1 ∉ lc)
           | none => false)
      if skip then result
      else if (ligaComponentFold e.2).isEmpty then result
      else result ++ [MarkPos.liga e.1 (ligaMarksOf e.2)])
    []

/-! ## `_getAnchorLists` and `_getAnchorPairs` -/

/-- A raw UFO anchor as the writer reads it: a (possibly empty) name and
coordinates.  Anchor identifiers/lib data are `None` here (contextual
anchors are out of scope of the claims below). -/
structure RawAnchor where
  name : String
  x : Int
  y : Int
deriving Repr, DecidableEq

/-- `_getAnchorLists` (lines 365-400) in the case without a GDEF
`GlyphClassDef` (`include = None`, every glyph considered) and with the
default `quantization=1`, for which the coordinate lookup `_getAnchor`
returns the anchor's own coordinates.  Unnamed anchors are discarded with a
warning; a duplicate anchor name is warned about and then the assignment
`anchorDict[anchorName] = a` replaces the stored anchor; ignorable anchors
are dropped; glyphs whose dict ends up empty are omitted. -/
def anchorDictFold (anchors : List RawAnchor) (anchorDict : List (String × NamedAnchor)) :
    Except String (List (String × NamedAnchor)) :=
  match anchors with
  | [] => .ok anchorDict
  | raw :: rest =>
    if raw.name = "" then anchorDictFold rest anchorDict
    else
      match mkNamedAnchor raw.name raw.x raw.y with
      | .error e => .error e
      | .ok a =>
        if a.isIgnorable then anchorDictFold rest anchorDict
        else anchorDictFold rest (dictSet anchorDict raw.name a)

/-- The outer loop of `_getAnchorLists`, with the accumulated result dict. -/
def getAnchorListsFold (glyphs : List (String × List RawAnchor))
    (result : List (String × List NamedAnchor)) :
    Except String (List (String × List NamedAnchor)) :=
  match glyphs with
  | [] => .ok result
  | e :: rest =>
    match anchorDictFold e.2 [] with
    | .error err => .error err
    | .ok anchorDict =>
      getAnchorListsFold rest
        (if anchorDict.isEmpty then result else result ++ [(e.1, anchorDict.map Prod.snd)])

def getAnchorLists (glyphs : List (String × List RawAnchor)) :
    Except String (List (String × List NamedAnchor)) :=
  getAnchorListsFold glyphs []

/-- The set of names of mark anchors anywhere in the glyph set
(lines 403-405). -/
def markAnchorNames (anchorLists : List (String × List NamedAnchor)) : List String :=
  anchorLists.flatMap (fun e => (e.2.filter (·.isMark)).map (·.name))

/-- `_getAnchorPairs` (lines 402-414): for every non-mark anchor whose
derived mark-counterpart name occurs as a mark anchor, record the pair
base-anchor-name → mark-anchor-name. -/
def getAnchorPairs (anchorLists : List (String × List NamedAnchor)) :
    List (String × String) :=
  anchorLists.foldl
    (fun pairs e =>
      e.2.foldl
        (fun pairs a =>
          if a.isMark then pairs
          else if markAnchorNameOf a ∈ markAnchorNames anchorLists then
            dictSet pairs a.name (markAnchorNameOf a)
          else pairs)
        pairs)
    []

/-- `shouldContinue` (lines 359-363) as a function of the computed anchor
pairs: `False` when there are none.  Modelled from the spec for the
remaining conjunct: `super().shouldContinue()` (in `BaseFeatureWriter`, not
under `src/`) does not depend on the anchor data and is taken as `true`. -/
def shouldContinueE (anchorPairs : List (String × String)) : Bool :=
  !anchorPairs.isEmpty

/-- Modelled from the spec: the feature writer (`BaseFeatureWriter.write`,
not under `src/`) produces features among mark/mkmk/abvm/blwm only when
`shouldContinue` is true; when it is false, no features are produced and the
run is a valid no-op.  The actual feature construction is abstracted as
`make`. -/
def generatedFeatureTags (make : Unit → List String)
    (anchorLists : List (String × List NamedAnchor)) : List String :=
  if shouldContinueE (getAnchorPairs anchorLists) then make () else []

/-! ## Concrete sample data used as witness inputs -/

/-- A mark class `MC_top` containing `acutecomb` at (50, 0). -/
def sampleTopClass : MarkClass := ⟨"MC_top", [("acutecomb", (50, 0))]⟩

/-- A registry binding `MC_top` to `sampleTopClass`. -/
def sampleRegistry : List (String × MarkClass) := [("MC_top", sampleTopClass)]

/-- A null ligature anchor `"_1"`: empty key, component 1, no mark class. -/
def nullLigaAnchor : NamedAnchor := ⟨"_1", 0, 0, false, "", some 1, none, false, false⟩

/-- A keyed ligature anchor `"top_1"` resolved to `sampleTopClass`. -/
def topLigaAnchor1 : NamedAnchor :=
  ⟨"top_1", 50, 500, false, "top", some 1, some sampleTopClass, false, false⟩

/-- A keyed ligature anchor `"top_2"` resolved to `sampleTopClass`. -/
def topLigaAnchor2 : NamedAnchor :=
  ⟨"top_2", 150, 500, false, "top", some 2, some sampleTopClass, false, false⟩

/-- An anchor-key → mark-class context binding key `top` to `sampleTopClass`. -/
def sampleCtx : List (String × MarkClass) := [("top", sampleTopClass)]

/-- A base anchor `top` on glyph `a`, resolved to `sampleTopClass`. -/
def anchorBaseTop : NamedAnchor :=
  ⟨"top", 100, 500, false, "top", none, some sampleTopClass, false, false⟩

/-- A base anchor `top` on glyph `b`, resolved to `sampleTopClass`. -/
def anchorBaseTopB : NamedAnchor :=
  ⟨"top", 80, 450, false, "top", none, some sampleTopClass, false, false⟩

/-- A mark class for key `top` whose name received a clash suffix (the split
path of `_defineMarkClass` binds `context.markClasses["top"]` to such a
class). -/
def mcTopSplit : MarkClass := ⟨"MC_top_1", []⟩

/-- A mark class for key `topA`. -/
def mcTopA : MarkClass := ⟨"MC_topA", []⟩

/-- A context where the class name of key `top` diverged from `MC_ + key`. -/
def cexCtx : List (String × MarkClass) := [("top", mcTopSplit), ("topA", mcTopA)]

/-- A base anchor with key `top` resolved to the split class `MC_top_1`. -/
def anchorSplit : NamedAnchor := ⟨"top", 0, 0, false, "top", none, some mcTopSplit, false, false⟩

/-- A base anchor with key `topA` resolved to `MC_topA`. -/
def anchorTopA : NamedAnchor := ⟨"topA", 0, 0, false, "topA", none, some mcTopA, false, false⟩

end MarkFeature

namespace MarkFeature

/-! # Theorems -/

/-! ## Dictionary lemmas -/

theorem dictGet_nil {α β : Type} [DecidableEq α] (k : α) :
    dictGet ([] : List (α × β)) k = none := rfl

theorem dictGet_dictSet_self {α β : Type} [DecidableEq α] (d : List (α × β)) (k : α) (v : β) :
    dictGet (dictSet d k v) k = some v := by
  induction d with
  | nil => simp [dictGet, dictSet]
  | cons e rest ih =>
    by_cases h : k = e.1
    · simp [dictGet, dictSet, h]
    · simp [dictGet, dictSet, h, ih]

theorem dictGet_dictSet_ne {α β : Type} [DecidableEq α] (d : List (α × β)) (k k' : α) (v : β)
    (h : k' ≠ k) : dictGet (dictSet d k v) k' = dictGet d k' := by
  induction d with
  | nil => simp [dictGet, dictSet, h]
  | cons e rest ih =>
    by_cases h0 : k = e.1
    · subst h0
      simp [dictGet, dictSet, h]
    · by_cases h1 : k' = e.1
      · simp [dictGet, dictSet, h0, h1]
      · simp [dictGet, dictSet, h0, h1, ih]

theorem dictSet_ne_nil {α β : Type} [DecidableEq α] (d : List (α × β)) (k : α) (v : β) :
    dictSet d k v ≠ [] := by
  cases d with
  | nil => simp [dictSet]
  | cons e rest =>
    by_cases h : k = e.1 <;> simp [dictSet, h]

theorem dictGet_eq_none_iff {α β : Type} [DecidableEq α] (d : List (α × β)) (k : α) :
    dictGet d k = none ↔ k ∉ d.map Prod.fst := by
  induction d with
  | nil => simp [dictGet]
  | cons e rest ih =>
    by_cases h : k = e.1
    · simp [dictGet, h]
    · simp [dictGet, h, ih]

theorem dictGet_mem {α β : Type} [DecidableEq α] {d : List (α × β)} {k : α} {v : β}
    (h : dictGet d k = some v) : (k, v) ∈ d := by
  induction d with
  | nil => simp [dictGet] at h
  | cons e rest ih =>
    by_cases h0 : k = e.1
    · subst h0
      simp [dictGet] at h
      subst h
      exact List.mem_cons_self _ _
    · simp [dictGet, h0] at h
      exact List.mem_cons_of_mem _ (ih h)

theorem dictGet_of_mem_nodup {α β : Type} [DecidableEq α] {d : List (α × β)} {k : α} {v : β}
    (hmem : (k, v) ∈ d) (hnd : (d.map Prod.fst).Nodup) : dictGet d k = some v := by
  induction d with
  | nil => simp at hmem
  | cons e rest ih =>
    simp only [List.map_cons, List.nodup_cons] at hnd
    rcases List.mem_cons.mp hmem with h | h
    · subst h
      simp [dictGet]
    · have hk : k ≠ e.1 := by
        intro hkk
        exact hnd.1 (hkk ▸ (List.mem_map.mpr ⟨(k, v), h, rfl⟩))
      simp [dictGet, hk, ih h hnd.2]

theorem dictSet_of_not_key {α β : Type} [DecidableEq α] {d : List (α × β)} {k : α} (v : β)
    (h : dictGet d k = none) : dictSet d k v = d ++ [(k, v)] := by
  induction d with
  | nil => simp [dictSet]
  | cons e rest ih =>
    by_cases h0 : k = e.1
    · simp [dictGet, h0] at h
    · simp only [dictGet, h0, if_false] at h
      simp [dictSet, h0, ih h]

theorem dictGet_append_some {α β : Type} [DecidableEq α] {d : List (α × β)} {k : α} {v : β}
    (l : List (α × β)) (h : dictGet d k = some v) : dictGet (d ++ l) k = some v := by
  induction d with
  | nil => simp [dictGet] at h
  | cons e rest ih =>
    by_cases h0 : k = e.1
    · simp [dictGet, h0] at h ⊢
      exact h
    · simp only [dictGet, h0, if_false] at h
      simp [dictGet, h0, ih h]

theorem dictGet_map_keyed {α β : Type} [DecidableEq α] (f : α → β) {l : List α} {i : α}
    (hnd : l.Nodup) (hi : i ∈ l) : dictGet (l.map (fun v => (v, f v))) i = some (f i) := by
  induction l with
  | nil => simp at hi
  | cons a rest ih =>
    rcases List.mem_cons.mp hi with h | h
    · subst h
      simp [dictGet]
    · have hia : i ≠ a := by
        rintro rfl
        exact (List.nodup_cons.mp hnd).1 h
      simp [dictGet, hia, ih (List.nodup_cons.mp hnd).2 h]

theorem map_fst_dictSet_mem {α β : Type} [DecidableEq α] (d : List (α × β)) (k : α) (v : β) :
    ∀ k', k' ∈ (dictSet d k v).map Prod.fst ↔ (k' ∈ d.map Prod.fst ∨ k' = k) := by
  intro k'
  induction d with
  | nil => simp [dictSet]
  | cons e rest ih =>
    by_cases h : k = e.1
    · subst h
      simp only [dictSet, if_pos rfl, List.map_cons]
      constructor
      · rintro h1
        rcases List.mem_cons.mp h1 with h1 | h1
        · exact Or.inl (List.mem_cons.mpr (Or.inl h1))
        · exact Or.inl (List.mem_cons.mpr (Or.inr h1))
      · rintro (h1 | h1)
        · exact h1
        · exact List.mem_cons.mpr (Or.inl h1)
    · simp only [dictSet, if_neg h, List.map_cons, List.mem_cons, ih]
      tauto

/-! ## Deduplication lemmas -/

theorem mem_dedupSeen {α : Type} [DecidableEq α] (seen l : List α) (x : α) :
    x ∈ dedupSeen seen l ↔ x ∈ l ∧ x ∉ seen := by
  induction l generalizing seen with
  | nil => simp [dedupSeen]
  | cons a rest ih =>
    by_cases h : a ∈ seen
    · simp only [dedupSeen, if_pos h, ih]
      constructor
      · rintro ⟨h1, h2⟩
        exact ⟨List.mem_cons_of_mem _ h1, h2⟩
      · rintro ⟨h1, h2⟩
        rcases List.mem_cons.mp h1 with rfl | h1
        · exact absurd h h2
        · exact ⟨h1, h2⟩
    · simp only [dedupSeen, if_neg h, List.mem_cons, ih, List.mem_cons]
      constructor
      · rintro (rfl | ⟨h1, h2⟩)
        · exact ⟨Or.inl rfl, h⟩
        · exact ⟨Or.inr h1, fun hx => h2 (Or.inr hx)⟩
      · rintro ⟨h1 | h1, h2⟩
        · exact Or.inl h1
        · by_cases hxa : x = a
          · exact Or.inl hxa
          · exact Or.inr ⟨h1, fun hx => by
              rcases hx with h3 | h3
              · exact hxa h3
              · exact h2 h3⟩

theorem nodup_dedupSeen {α : Type} [DecidableEq α] (seen l : List α) :
    (dedupSeen seen l).Nodup := by
  induction l generalizing seen with
  | nil => simp [dedupSeen]
  | cons a rest ih =>
    by_cases h : a ∈ seen
    · simpa [dedupSeen, if_pos h] using ih seen
    · simp only [dedupSeen, if_neg h, List.nodup_cons]
      refine ⟨fun hmem => ?_, ih (a :: seen)⟩
      exact ((mem_dedupSeen _ _ _).mp hmem).2 (List.mem_cons_self _ _)

theorem mem_dedupKeepFirst {α : Type} [DecidableEq α] (l : List α) (x : α) :
    x ∈ dedupKeepFirst l ↔ x ∈ l := by
  simp [dedupKeepFirst, mem_dedupSeen]

theorem nodup_dedupKeepFirst {α : Type} [DecidableEq α] (l : List α) :
    (dedupKeepFirst l).Nodup :=
  nodup_dedupSeen [] l

theorem dedupSeen_eq_self {α : Type} [DecidableEq α] {seen l : List α}
    (hnd : l.Nodup) (h : ∀ x ∈ l, x ∉ seen) : dedupSeen seen l = l := by
  induction l generalizing seen with
  | nil => rfl
  | cons a rest ih =>
    have ha : a ∉ seen := h a (List.mem_cons_self _ _)
    simp only [dedupSeen, if_neg ha]
    congr 1
    refine ih (List.nodup_cons.mp hnd).2 (fun x hx => ?_)
    intro hxs
    rcases List.mem_cons.mp hxs with rfl | hxs
    · exact (List.nodup_cons.mp hnd).1 hx
    · exact h x (List.mem_cons_of_mem _ hx) hxs

theorem dedupSeen_eq_nil {α : Type} [DecidableEq α] {seen l : List α}
    (h : ∀ x ∈ l, x ∈ seen) : dedupSeen seen l = [] := by
  induction l with
  | nil => rfl
  | cons a rest ih =>
    have ha : a ∈ seen := h a (List.mem_cons_self _ _)
    simp only [dedupSeen, if_pos ha]
    exact ih (fun x hx => h x (List.mem_cons_of_mem _ hx))

/-! ## `firstAvailable` lemmas -/

theorem firstAvailableFrom_spec (colorSet : List Nat) :
    ∀ (fuel count : Nat), (∃ m, count ≤ m ∧ m < count + fuel ∧ m ∉ colorSet) →
      firstAvailableFrom colorSet fuel count ∉ colorSet ∧
      count ≤ firstAvailableFrom colorSet fuel count ∧
      (∀ j, count ≤ j → j < firstAvailableFrom colorSet fuel count → j ∈ colorSet) := by
  intro fuel
  induction fuel with
  | zero =>
    intro count ⟨m, h1, h2, _⟩
    omega
  | succ fuel ih =>
    intro count ⟨m, h1, h2, h3⟩
    by_cases hc : count ∈ colorSet
    · have hm : count + 1 ≤ m := by
        rcases Nat.lt_or_ge count m with h | h
        · omega
        · have : m = count := by omega
          subst this
          exact absurd hc h3
      have := ih (count + 1) ⟨m, hm, by omega, h3⟩
      simp only [firstAvailableFrom, if_pos hc]
      refine ⟨this.1, by omega, fun j hj1 hj2 => ?_⟩
      rcases Nat.lt_or_ge j (count + 1) with h | h
      · have : j = count := by omega
        subst this
        exact hc
      · exact this.2.2 j h hj2
    · simp only [firstAvailableFrom, if_neg hc]
      exact ⟨hc, Nat.le_refl _, fun j hj1 hj2 => by omega⟩

theorem mem_le_natMaxList {l : List Nat} {x : Nat} (h : x ∈ l) : x ≤ natMaxList l := by
  induction l with
  | nil => simp at h
  | cons a rest ih =>
    rcases List.mem_cons.mp h with rfl | h
    · simp only [natMaxList, List.foldr_cons]
      omega
    · have := ih h
      simp only [natMaxList, List.foldr_cons] at *
      omega

theorem firstAvailable_spec (colorSet : List Nat) :
    firstAvailable colorSet ∉ colorSet ∧
      (∀ j, j < firstAvailable colorSet → j ∈ colorSet) := by
  have hex : ∃ m, 0 ≤ m ∧ m < 0 + (natMaxList colorSet + 2) ∧ m ∉ colorSet := by
    refine ⟨natMaxList colorSet + 1, by omega, by omega, fun hmem => ?_⟩
    have := mem_le_natMaxList hmem
    omega
  have := firstAvailableFrom_spec colorSet (natMaxList colorSet + 2) 0 hex
  exact ⟨this.1, fun j hj => this.2.2 j (Nat.zero_le _) hj⟩

theorem firstAvailable_eq {colorSet : List Nat} {m : Nat}
    (h1 : m ∉ colorSet) (h2 : ∀ j, j < m → j ∈ colorSet) : firstAvailable colorSet = m := by
  have hs := firstAvailable_spec colorSet
  rcases Nat.lt_trichotomy (firstAvailable colorSet) m with h | h | h
  · exact absurd (h2 _ h) hs.1
  · exact h
  · exact absurd (hs.2 m h) h1

/-! ## `parseAnchorName` structure lemmas -/

theorem parseMarkStage_ok_shape {s : String} {cs key : List Char} {number : Option Nat}
    {r : AnchorParse} (h : parseMarkStage s cs key number = Except.ok r) :
    (r.isMark = true → r.number = none) ∧
    r.isIgnorable = isIgnorableKey r.key.data ∧
    r.isContextual = false := by
  simp only [parseMarkStage] at h
  split at h
  · split at h
    · exact absurd h (by simp)
    · split at h
      · exact absurd h (by simp)
      · rw [Except.ok.injEq] at h
        subst h
        exact ⟨fun _ => rfl, rfl, rfl⟩
  · rw [Except.ok.injEq] at h
    subst h
    refine ⟨fun hm => by simp at hm, rfl, rfl⟩

theorem parseAnchorName_ok_shape {s : String} {r : AnchorParse}
    (h : parseAnchorName s = Except.ok r) :
    (r.isMark = true → r.number = none) ∧
    r.isIgnorable = isIgnorableKey r.key.data ∧
    r.isContextual = false := by
  simp only [parseAnchorName] at h
  split at h
  · exact absurd h (by simp)
  · exact parseMarkStage_ok_shape h

theorem isIgnorableKey_eq_true_iff (l : List Char) :
    isIgnorableKey l = true ↔ ∃ c cs, l = c :: cs ∧ c.isAlpha = false := by
  cases l with
  | nil => simp [isIgnorableKey]
  | cons c cs =>
    simp only [isIgnorableKey, Bool.not_eq_true']
    constructor
    · intro h
      exact ⟨c, cs, rfl, h⟩
    · rintro ⟨c', cs', heq, h⟩
      cases heq
      exact h

/-- C1: `parseAnchorName` maps the reference inputs exactly: `"top_1"` is a
non-mark anchor with key `"top"` and component 1; `"_top"` is a mark anchor
with key `"top"` and no component; `"_top_1"` and `"_bottom_2"` raise the
malformed-anchor error for a numbered mark anchor. -/
theorem parseAnchorName_reference_inputs :
    parseAnchorName "top_1" = .ok ⟨false, "top", some 1, false, false⟩ ∧
    parseAnchorName "_top" = .ok ⟨true, "top", none, false, false⟩ ∧
    parseAnchorName "_top_1" = .error "mark anchor cannot be numbered: _top_1" ∧
    parseAnchorName "_bottom_2" = .error "mark anchor cannot be numbered: _bottom_2" := by
  refine ⟨rfl, rfl, rfl, rfl⟩

/-- C9 counterexample: parsing `"_3"` does not raise at all (the mark-prefix
branch requires a non-empty pre-strip key), and the result has an empty key
with `isIgnorable` `false` — refuting "`isIgnorable` is true exactly when the
returned key is empty or its first character is not alphabetic". -/
theorem parseAnchorName_underscore3_cex :
    parseAnchorName "_3" = Except.ok ⟨false, "", some 3, false, false⟩ ∧
    ¬ (∀ (s : String) (r : AnchorParse), parseAnchorName s = Except.ok r →
        (r.isIgnorable = true ↔
          (r.key = "" ∨ ∃ c, r.key.data.head? = some c ∧ c.isAlpha = false))) := by
  refine ⟨rfl, fun h => ?_⟩
  have := (h "_3" ⟨false, "", some 3, false, false⟩ rfl).2 (Or.inl rfl)
  simp at this

/-- C9 (amended): parsing `"_3"` raises no error and returns a non-mark
anchor with empty key and component 3; `isIgnorable` is true exactly when
the returned key is non-empty and its first character is not alphabetic (an
empty key yields `isIgnorable = false`, Python falsiness of `""`). -/
theorem parseAnchorName_isIgnorable_iff (s : String) (r : AnchorParse)
    (h : parseAnchorName s = Except.ok r) :
    (r.isIgnorable = true ↔ ∃ c cs, r.key.data = c :: cs ∧ c.isAlpha = false) ∧
    parseAnchorName "_3" = Except.ok ⟨false, "", some 3, false, false⟩ := by
  refine ⟨?_, rfl⟩
  rw [(parseAnchorName_ok_shape h).2.1]
  exact isIgnorableKey_eq_true_iff r.key.data

/-- Witness for `parseAnchorName_isIgnorable_iff` at the concrete input
`"1top"` (a non-alphabetic key, hence ignorable). -/
theorem parseAnchorName_isIgnorable_iff_witness :
    ((⟨false, "1top", none, false, true⟩ : AnchorParse).isIgnorable = true ↔
      ∃ c cs, (⟨false, "1top", none, false, true⟩ : AnchorParse).key.data = c :: cs ∧
        c.isAlpha = false) ∧
    parseAnchorName "_3" = Except.ok ⟨false, "", some 3, false, false⟩ :=
  parseAnchorName_isIgnorable_iff "1top" ⟨false, "1top", none, false, true⟩ rfl

/-- C10 counterexample: `NamedAnchor("_3", …)` is constructed successfully
with an empty key although it is not ignorable — refuting "`key` is
non-empty unless the anchor is ignorable". -/
theorem mkNamedAnchor_key_nonempty_cex :
    ¬ (∀ (name : String) (x y : Int) (a : NamedAnchor),
        mkNamedAnchor name x y = Except.ok a → (a.isIgnorable = true ∨ a.key ≠ "")) := by
  intro h
  have := h "_3" 0 0 ⟨"_3", 0, 0, false, "", some 3, none, false, false⟩ rfl
  rcases this with h1 | h1
  · simp at h1
  · exact h1 rfl

/-- C10 (amended): every successfully constructed `NamedAnchor` has a
component number ≥ 1 when present; a mark anchor has no component number;
and the key is non-empty unless the anchor carries a component number (an
anchor whose key is empty is a numbered null-component anchor, and is not
flagged ignorable). -/
theorem mkNamedAnchor_invariant (name : String) (x y : Int) (a : NamedAnchor)
    (h : mkNamedAnchor name x y = Except.ok a) :
    (∀ n, a.number = some n → 1 ≤ n) ∧
    (a.isMark = true → a.number = none) ∧
    (a.number = none → a.key ≠ "") ∧
    (a.key = "" → a.number ≠ none ∧ a.isIgnorable = false) := by
  simp only [mkNamedAnchor] at h
  split at h
  · exact absurd h (by simp)
  · rename_i p hp
    have hshape := parseAnchorName_ok_shape hp
    split at h
    · rename_i n hn
      split at h
      · exact absurd h (by simp)
      · rename_i hn1
        rw [Except.ok.injEq] at h
        subst h
        refine ⟨?_, ?_, ?_, ?_⟩
        · intro m hm
          simp only [hn] at hm
          rw [Option.some.injEq] at hm
          omega
        · intro hmark
          have := hshape.1 hmark
          rw [hn] at this
          exact absurd this (by simp)
        · intro hnone
          simp only [hn] at hnone
          exact absurd hnone (by simp)
        · intro hkey
          refine ⟨by simp [hn], ?_⟩
          have hk2 : p.key = "" := hkey
          have h2 := hshape.2.1
          rw [hk2] at h2
          exact h2.trans rfl
    · rename_i hn
      split at h
      · exact absurd h (by simp)
      · rename_i hkey
        rw [Except.ok.injEq] at h
        subst h
        refine ⟨?_, fun _ => hn, fun _ => hkey, fun hk => absurd hk hkey⟩
        intro m hm
        simp only [hn] at hm
        exact absurd hm (by simp)

/-- Witness for `mkNamedAnchor_invariant` at the concrete input `"top_1"`. -/
theorem mkNamedAnchor_invariant_witness :
    (∀ n, (⟨"top_1", 3, 4, false, "top", some 1, none, false, false⟩ : NamedAnchor).number =
        some n → 1 ≤ n) ∧
    ((⟨"top_1", 3, 4, false, "top", some 1, none, false, false⟩ : NamedAnchor).isMark = true →
      (⟨"top_1", 3, 4, false, "top", some 1, none, false, false⟩ : NamedAnchor).number = none) ∧
    ((⟨"top_1", 3, 4, false, "top", some 1, none, false, false⟩ : NamedAnchor).number = none →
      (⟨"top_1", 3, 4, false, "top", some 1, none, false, false⟩ : NamedAnchor).key ≠ "") ∧
    ((⟨"top_1", 3, 4, false, "top", some 1, none, false, false⟩ : NamedAnchor).key = "" →
      (⟨"top_1", 3, 4, false, "top", some 1, none, false, false⟩ : NamedAnchor).number ≠ none ∧
      (⟨"top_1", 3, 4, false, "top", some 1, none, false, false⟩ : NamedAnchor).isIgnorable = false) :=
  mkNamedAnchor_invariant "top_1" 3 4 ⟨"top_1", 3, 4, false, "top", some 1, none, false, false⟩ rfl

/-! ## C7: empty anchor-pair contract skips generation -/

theorem foldl_nil_invariant {α β : Type} (f : List β → α → List β) (l : List α)
    (h : ∀ a ∈ l, f [] a = []) : l.foldl f [] = [] := by
  induction l with
  | nil => rfl
  | cons a rest ih =>
    rw [List.foldl_cons, h a (List.mem_cons_self _ _)]
    exact ih (fun b hb => h b (List.mem_cons_of_mem _ hb))

/-- C7: when no non-mark anchor's derived mark-counterpart name occurs as a
mark anchor anywhere in the glyph set, the anchor-pair contract is empty,
`shouldContinue` is `False`, and no features are generated — a valid no-op,
not an error. -/
theorem noAnchorPairs_skip (L : List (String × List NamedAnchor))
    (h : ∀ e ∈ L, ∀ a ∈ e.2, a.isMark = false → markAnchorNameOf a ∉ markAnchorNames L) :
    getAnchorPairs L = [] ∧ shouldContinueE (getAnchorPairs L) = false ∧
    (∀ make, generatedFeatureTags make L = []) := by
  have hpairs : getAnchorPairs L = [] := by
    unfold getAnchorPairs
    refine foldl_nil_invariant _ L (fun e he => ?_)
    refine foldl_nil_invariant _ e.2 (fun a ha => ?_)
    by_cases hm : a.isMark
    · simp [hm]
    · have hnot := h e he a ha (by simpa using hm)
      simp [hm, hnot]
  refine ⟨hpairs, by rw [hpairs]; rfl, fun make => ?_⟩
  unfold generatedFeatureTags
  rw [hpairs]
  rfl

/-- Witness for `noAnchorPairs_skip`: a glyph set with a single mark glyph
carrying only the mark anchor `"_top"` (no glyph has a base `"top"`). -/
theorem noAnchorPairs_skip_witness :
    getAnchorPairs [("tildecomb", [⟨"_top", 0, 0, true, "top", none, none, false, false⟩])] = [] ∧
    shouldContinueE (getAnchorPairs
      [("tildecomb", [⟨"_top", 0, 0, true, "top", none, none, false, false⟩])]) = false ∧
    (∀ make, generatedFeatureTags make
      [("tildecomb", [⟨"_top", 0, 0, true, "top", none, none, false, false⟩])] = []) :=
  noAnchorPairs_skip [("tildecomb", [⟨"_top", 0, 0, true, "top", none, none, false, false⟩])]
    (by decide)

/-! ## C8: duplicate anchor names -/

/-- C8 counterexample: for a glyph with two anchors both named `"top"`, the
retained anchor is the second occurrence (at coordinates (2,2)), not the
first-seen one — the source only warns and then overwrites
`anchorDict[anchorName]`. -/
theorem getAnchorLists_duplicate_cex :
    getAnchorLists [("a", [⟨"top", 1, 1⟩, ⟨"top", 2, 2⟩])] =
      Except.ok [("a", [⟨"top", 2, 2, false, "top", none, none, false, false⟩])] ∧
    ¬ getAnchorLists [("a", [⟨"top", 1, 1⟩, ⟨"top", 2, 2⟩])] =
      Except.ok [("a", [⟨"top", 1, 1, false, "top", none, none, false, false⟩])] := by
  refine ⟨rfl, fun h => ?_⟩
  have h0 : getAnchorLists [("a", [⟨"top", 1, 1⟩, ⟨"top", 2, 2⟩])] =
      Except.ok [("a", [(⟨"top", 2, 2, false, "top", none, none, false, false⟩ : NamedAnchor)])] :=
    rfl
  have h2 := h0.symm.trans h
  injection h2 with h3
  simp at h3

/-- C8 (amended): a duplicate anchor name is detected and warned about, but
the *later* occurrence replaces the earlier one (at the first-seen dict
position); unnamed anchors are discarded. -/
theorem getAnchorLists_duplicate_lastWins (g n : String) (x1 y1 x2 y2 : Int)
    (a1 a2 : NamedAnchor)
    (h1 : mkNamedAnchor n x1 y1 = Except.ok a1) (h2 : mkNamedAnchor n x2 y2 = Except.ok a2)
    (hn : n ≠ "") (hi1 : a1.isIgnorable = false) (hi2 : a2.isIgnorable = false) :
    getAnchorLists [(g, [⟨n, x1, y1⟩, ⟨n, x2, y2⟩])] = Except.ok [(g, [a2])] ∧
    (∀ (g2 : String) (x y : Int), getAnchorLists [(g2, [⟨"", x, y⟩])] = Except.ok []) := by
  constructor
  · simp [getAnchorLists, getAnchorListsFold, anchorDictFold, hn, h1, h2, hi1, hi2, dictSet]
  · intro g2 x y
    rfl

/-- Witness for `getAnchorLists_duplicate_lastWins` at concrete anchors
`("top", 1, 1)` then `("top", 2, 2)`. -/
theorem getAnchorLists_duplicate_lastWins_witness :
    getAnchorLists [("a", [⟨"top", 1, 1⟩, ⟨"top", 2, 2⟩])] =
      Except.ok [("a", [⟨"top", 2, 2, false, "top", none, none, false, false⟩])] ∧
    (∀ (g2 : String) (x y : Int), getAnchorLists [(g2, [⟨"", x, y⟩])] = Except.ok []) :=
  getAnchorLists_duplicate_lastWins "a" "top" 1 1 2 2
    ⟨"top", 1, 1, false, "top", none, none, false, false⟩
    ⟨"top", 2, 2, false, "top", none, none, false, false⟩
    rfl rfl (by decide) rfl rfl

/-! ## C4: `_defineMarkClass` skip and split -/

theorem mem_le_maxNameLen {d : List (String × MarkClass)} {e : String × MarkClass}
    (h : e ∈ d) : e.1.length ≤ maxNameLen d := by
  induction d with
  | nil => simp at h
  | cons e0 rest ih =>
    rcases List.mem_cons.mp h with rfl | h
    · simp only [maxNameLen, List.foldr_cons]
      omega
    · have := ih h
      simp only [maxNameLen, List.foldr_cons] at *
      omega

theorem makeFeaClassName_length (n : String) (d : List (String × MarkClass)) :
    (makeFeaClassName n d).length = n.length + 1 + (maxNameLen d + 1) := by
  simp [makeFeaClassName, String.length_append, String.length_mk]
  rfl

theorem makeFeaClassName_fresh (n : String) (d : List (String × MarkClass)) :
    dictGet d (makeFeaClassName n d) = none := by
  rw [dictGet_eq_none_iff]
  intro hmem
  obtain ⟨e, he, heq⟩ := List.mem_map.mp hmem
  have h1 : e.1.length ≤ maxNameLen d := mem_le_maxNameLen he
  have h2 := makeFeaClassName_length n d
  rw [heq] at h1
  omega

/-- C4: when the class `className` exists and already contains `glyphName` at
identical coordinates, `_defineMarkClass` returns `None` and leaves the
registry unchanged; at different coordinates, it creates a fresh class under
a new uniquely-suffixed name containing only the new definition, appends it
to the registry, and leaves the original class (and everything else bound
before) unchanged. -/
theorem defineMarkClass_existing (glyphName : String) (x y x0 y0 : Int)
    (className : String) (markClasses : List (String × MarkClass)) (mc : MarkClass)
    (hmc : dictGet markClasses className = some mc)
    (hg : dictGet mc.glyphs glyphName = some (x0, y0)) :
    ((x0, y0) = (x, y) →
      defineMarkClass glyphName x y className markClasses = (none, markClasses)) ∧
    ((x0, y0) ≠ (x, y) →
      defineMarkClass glyphName x y className markClasses =
        (some ⟨makeFeaClassName className markClasses, glyphName, (x, y)⟩,
          markClasses ++ [(makeFeaClassName className markClasses,
            ⟨makeFeaClassName className markClasses, [(glyphName, (x, y))]⟩)]) ∧
      dictGet markClasses (makeFeaClassName className markClasses) = none ∧
      dictGet (markClasses ++ [(makeFeaClassName className markClasses,
        ⟨makeFeaClassName className markClasses, [(glyphName, (x, y))]⟩)]) className =
        some mc) := by
  constructor
  · intro heq
    simp [defineMarkClass, hmc, hg, heq]
  · intro hne
    refine ⟨?_, makeFeaClassName_fresh className markClasses,
      dictGet_append_some _ hmc⟩
    simp only [defineMarkClass, hmc, hg]
    rw [if_neg hne, dictSet_of_not_key _ (makeFeaClassName_fresh className markClasses)]

/-- Witness for `defineMarkClass_existing`: the registry `sampleRegistry`
(one class `MC_top` containing `acutecomb` at (50, 0)), with `acutecomb`
redefined at (99, 88). -/
theorem defineMarkClass_existing_witness :
    (((50 : Int), (0 : Int)) = (99, 88) →
      defineMarkClass "acutecomb" 99 88 "MC_top" sampleRegistry = (none, sampleRegistry)) ∧
    (((50 : Int), (0 : Int)) ≠ (99, 88) →
      defineMarkClass "acutecomb" 99 88 "MC_top" sampleRegistry =
        (some ⟨makeFeaClassName "MC_top" sampleRegistry, "acutecomb", (99, 88)⟩,
          sampleRegistry ++ [(makeFeaClassName "MC_top" sampleRegistry,
            ⟨makeFeaClassName "MC_top" sampleRegistry, [("acutecomb", (99, 88))]⟩)]) ∧
      dictGet sampleRegistry (makeFeaClassName "MC_top" sampleRegistry) = none ∧
      dictGet (sampleRegistry ++ [(makeFeaClassName "MC_top" sampleRegistry,
          ⟨makeFeaClassName "MC_top" sampleRegistry, [("acutecomb", (99, 88))]⟩)]) "MC_top" =
        some sampleTopClass) :=
  defineMarkClass_existing "acutecomb" 99 88 50 0 "MC_top" sampleRegistry
    sampleTopClass rfl rfl

/-! ## C6: mark-to-ligature component lists -/

theorem keptLigaAnchor_isSome {a : NamedAnchor} (h : keptLigaAnchor a = true) :
    ∃ m, a.number = some m := by
  simp only [keptLigaAnchor, Bool.and_eq_true] at h
  exact Option.isSome_iff_exists.mp h.1.2

theorem ligaStep_not_kept {d : List (Nat × List NamedAnchor)} {a : NamedAnchor}
    (h : keptLigaAnchor a = false) : ligaStep d a = d := by
  unfold ligaStep
  split
  · rfl
  · rename_i h1
    have hC : (a.markClass.isNone && decide (a.key ≠ "")) = false := by
      simpa using h1
    cases hn : a.number with
    | none => rfl
    | some m =>
      simp only [keptLigaAnchor, hC, hn, Bool.not_false, Bool.true_and,
        Option.isSome_some, Bool.and_eq_false_iff, Bool.not_eq_false'] at h
      simp [h]

theorem ligaStep_kept {d : List (Nat × List NamedAnchor)} {a : NamedAnchor} {m : Nat}
    (h : keptLigaAnchor a = true) (hm : a.number = some m) :
    ligaStep d a = if a.key = "" then dictSet d m [] else dictAppend d m a := by
  simp only [keptLigaAnchor, Bool.and_eq_true, Bool.not_eq_true'] at h
  have hcond : ¬ ((a.markClass.isNone && decide (a.key ≠ "")) = true) := by
    intro hc
    rw [h.1.1] at hc
    cases hc
  have hctx : ¬ (a.isContextual = true) := by
    intro hc
    rw [h.2] at hc
    cases hc
  unfold ligaStep
  rw [if_neg hcond]
  simp only [hm]
  rw [if_neg hctx]

theorem ligaStep_get_ne {d : List (Nat × List NamedAnchor)} {a : NamedAnchor} {m n : Nat}
    (h : keptLigaAnchor a = true) (hm : a.number = some m) (hne : n ≠ m) :
    dictGet (ligaStep d a) n = dictGet d n := by
  rw [ligaStep_kept h hm]
  split
  · exact dictGet_dictSet_ne _ _ _ _ hne
  · unfold dictAppend
    exact dictGet_dictSet_ne _ _ _ _ hne

theorem foldl_ligaStep_get_no_kept {l : List NamedAnchor}
    {d : List (Nat × List NamedAnchor)} {n : Nat}
    (h : ∀ a ∈ l, keptLigaAnchor a = true → a.number ≠ some n) :
    dictGet (l.foldl ligaStep d) n = dictGet d n := by
  induction l generalizing d with
  | nil => rfl
  | cons a rest ih =>
    rw [List.foldl_cons, ih (fun b hb => h b (List.mem_cons_of_mem _ hb))]
    by_cases hk : keptLigaAnchor a = true
    · obtain ⟨m, hm⟩ := keptLigaAnchor_isSome hk
      have hmn : n ≠ m := by
        intro hc
        exact h a (List.mem_cons_self _ _) hk (by rw [hm, hc])
      exact ligaStep_get_ne hk hm hmn
    · rw [ligaStep_not_kept (by simpa using hk)]

theorem foldl_ligaStep_last_empty {pre post : List NamedAnchor} {a : NamedAnchor} {n : Nat}
    (hk : keptLigaAnchor a = true) (hn : a.number = some n) (hkey : a.key = "")
    (hpost : ∀ b ∈ post, keptLigaAnchor b = true → b.number ≠ some n) :
    dictGet (ligaComponentFold (pre ++ a :: post)) n = some [] := by
  unfold ligaComponentFold
  rw [List.foldl_append, List.foldl_cons, foldl_ligaStep_get_no_kept hpost,
    ligaStep_kept hk hn, if_pos hkey, dictGet_dictSet_self]

theorem natMaxList_cons (x : Nat) (l : List Nat) :
    natMaxList (x :: l) = max x (natMaxList l) := rfl

theorem maxKeys_cons (k : Nat) (v : List NamedAnchor) (d : List (Nat × List NamedAnchor)) :
    maxKeys ((k, v) :: d) = max k (maxKeys d) := rfl

theorem maxKeys_dictSet (d : List (Nat × List NamedAnchor)) (k : Nat) (v : List NamedAnchor) :
    maxKeys (dictSet d k v) = max k (maxKeys d) := by
  induction d with
  | nil => rfl
  | cons e rest ih =>
    obtain ⟨k0, v0⟩ := e
    by_cases h : k = k0
    · subst h
      have hset : dictSet ((k, v0) :: rest) k v = (k, v) :: rest := by
        simp [dictSet]
      rw [hset, maxKeys_cons, maxKeys_cons]
      omega
    · simp only [dictSet, if_neg h]
      rw [maxKeys_cons, maxKeys_cons, ih]
      omega

theorem maxKeys_ligaStep {d : List (Nat × List NamedAnchor)} {a : NamedAnchor} {m : Nat}
    (h : keptLigaAnchor a = true) (hm : a.number = some m) :
    maxKeys (ligaStep d a) = max m (maxKeys d) := by
  rw [ligaStep_kept h hm]
  split
  · exact maxKeys_dictSet _ _ _
  · unfold dictAppend
    exact maxKeys_dictSet _ _ _

/-- The maximum component index among the anchors that the ligature loop
keeps (0 when there is none). -/
theorem maxKeys_foldl_ligaStep (l : List NamedAnchor) (d : List (Nat × List NamedAnchor)) :
    maxKeys (l.foldl ligaStep d) =
      max (maxKeys d)
        (natMaxList (l.filterMap (fun a => if keptLigaAnchor a then a.number else none))) := by
  induction l generalizing d with
  | nil =>
    simp only [List.foldl_nil, List.filterMap_nil]
    have : natMaxList [] = 0 := rfl
    omega
  | cons a rest ih =>
    rw [List.foldl_cons]
    by_cases hk : keptLigaAnchor a = true
    · obtain ⟨m, hm⟩ := keptLigaAnchor_isSome hk
      rw [ih, maxKeys_ligaStep hk hm]
      simp only [List.filterMap_cons, hk, if_true, hm, natMaxList_cons]
      omega
    · rw [ligaStep_not_kept (by simpa using hk), ih]
      simp only [List.filterMap_cons, hk, if_false]
      congr 1

theorem ligaStep_ne_nil_of_ne {d : List (Nat × List NamedAnchor)} {a : NamedAnchor}
    (h : d ≠ []) : ligaStep d a ≠ [] := by
  unfold ligaStep
  split
  · exact h
  · split
    · exact h
    · split
      · exact h
      · split
        · exact dictSet_ne_nil _ _ _
        · exact dictSet_ne_nil _ _ _

theorem foldl_ligaStep_ne_nil_of_ne {l : List NamedAnchor}
    {d : List (Nat × List NamedAnchor)} (h : d ≠ []) : l.foldl ligaStep d ≠ [] := by
  induction l generalizing d with
  | nil => exact h
  | cons a rest ih => exact ih (ligaStep_ne_nil_of_ne h)

theorem foldl_ligaStep_ne_nil {l : List NamedAnchor} {d : List (Nat × List NamedAnchor)}
    (h : ∃ a ∈ l, keptLigaAnchor a = true) : l.foldl ligaStep d ≠ [] := by
  induction l generalizing d with
  | nil => simp at h
  | cons a rest ih =>
    rw [List.foldl_cons]
    by_cases hk : keptLigaAnchor a = true
    · obtain ⟨m, hm⟩ := keptLigaAnchor_isSome hk
      refine foldl_ligaStep_ne_nil_of_ne ?_
      rw [ligaStep_kept hk hm]
      split
      · exact dictSet_ne_nil _ _ _
      · unfold dictAppend
        exact dictSet_ne_nil _ _ _
    · obtain ⟨b, hb, hbk⟩ := h
      rcases List.mem_cons.mp hb with rfl | hb
      · exact absurd hbk hk
      · exact ih ⟨b, hb, hbk⟩

/-- C6 counterexample: in glyph `f_f`, the null anchor `"_1"` is followed by
the keyed anchor `"top_1"`; the later keyed anchor re-populates component 1,
so the empty-key anchor does *not* force an empty placeholder. -/
theorem makeMarkToLigaAttachments_nullOverride_cex :
    makeMarkToLigaAttachments [("f_f", [nullLigaAnchor, topLigaAnchor1])] [] none =
      [MarkPos.liga "f_f" [[topLigaAnchor1]]] ∧
    [[topLigaAnchor1]] ≠ ([[]] : List (List NamedAnchor)) := by
  refine ⟨rfl, by simp⟩

/-- C6 (amended): for a glyph not excluded as mark or by the GDEF ligature
class, with at least one anchor surviving the component loop, the attachment
has one component per index from 1 to the maximum kept component index; an
index with no kept anchor maps to the empty placeholder; and an empty-key
numbered anchor forces the empty placeholder for its component provided no
later kept anchor carries the same component index (a later keyed anchor
re-populates the component). -/
theorem makeMarkToLigaAttachments_components (g : String) (anchors : List NamedAnchor)
    (mg : List String) (lc : Option (List String))
    (hg : g ∉ mg) (hlc : ∀ l ∈ lc, g ∈ l)
    (hkept : ∃ a ∈ anchors, keptLigaAnchor a = true) :
    makeMarkToLigaAttachments [(g, anchors)] mg lc = [MarkPos.liga g (ligaMarksOf anchors)] ∧
    (ligaMarksOf anchors).length =
      natMaxList (anchors.filterMap (fun a => if keptLigaAnchor a then a.number else none)) ∧
    (∀ i, 1 ≤ i → i ≤ (ligaMarksOf anchors).length →
      (∀ a ∈ anchors, keptLigaAnchor a = true → a.number ≠ some i) →
      (ligaMarksOf anchors)[i - 1]? = some []) ∧
    (∀ i (pre post : List NamedAnchor) (a : NamedAnchor), anchors = pre ++ a :: post →
      keptLigaAnchor a = true → a.number = some i → a.key = "" →
      (∀ b ∈ post, keptLigaAnchor b = true → b.number ≠ some i) →
      1 ≤ i → i ≤ (ligaMarksOf anchors).length →
      (ligaMarksOf anchors)[i - 1]? = some []) := by
  have hne : ligaComponentFold anchors ≠ [] := foldl_ligaStep_ne_nil hkept
  have hlen : (ligaMarksOf anchors).length = maxKeys (ligaComponentFold anchors) := by
    simp [ligaMarksOf]
  refine ⟨?_, ?_, ?_, ?_⟩
  · simp only [makeMarkToLigaAttachments, List.foldl_cons, List.foldl_nil]
    cases lc with
    | none => simp [hg, List.isEmpty_iff, hne]
    | some l => simp [hg, hlc l rfl, List.isEmpty_iff, hne]
  · rw [hlen]
    have := maxKeys_foldl_ligaStep anchors []
    unfold ligaComponentFold
    rw [this]
    have h0 : maxKeys ([] : List (Nat × List NamedAnchor)) = 0 := rfl
    omega
  · intro i h1 h2 hno
    have hd : dictGet (ligaComponentFold anchors) i = none := by
      rw [show ligaComponentFold anchors = anchors.foldl ligaStep [] from rfl,
        foldl_ligaStep_get_no_kept hno]
      rfl
    rw [hlen] at h2
    unfold ligaMarksOf
    rw [List.getElem?_map, List.getElem?_range' 1 1 (by omega)]
    simp only [Option.map_some']
    rw [show 1 + 1 * (i - 1) = i by omega, hd]
    rfl
  · intro i pre post a heq hk hn hkey hpost h1 h2
    have hd : dictGet (ligaComponentFold anchors) i = some [] := by
      rw [heq]
      exact foldl_ligaStep_last_empty hk hn hkey hpost
    rw [hlen] at h2
    unfold ligaMarksOf
    rw [List.getElem?_map, List.getElem?_range' 1 1 (by omega)]
    simp only [Option.map_some']
    rw [show 1 + 1 * (i - 1) = i by omega, hd]
    rfl

/-- Witness for `makeMarkToLigaAttachments_components`: the spec's scenario
with ligature `f_f` carrying `top_1` and `top_2`. -/
theorem makeMarkToLigaAttachments_components_witness :
    makeMarkToLigaAttachments [("f_f", [topLigaAnchor1, topLigaAnchor2])] [] none =
      [MarkPos.liga "f_f" (ligaMarksOf [topLigaAnchor1, topLigaAnchor2])] ∧
    (ligaMarksOf [topLigaAnchor1, topLigaAnchor2]).length =
      natMaxList ([topLigaAnchor1, topLigaAnchor2].filterMap
        (fun a => if keptLigaAnchor a then a.number else none)) ∧
    (∀ i, 1 ≤ i → i ≤ (ligaMarksOf [topLigaAnchor1, topLigaAnchor2]).length →
      (∀ a ∈ [topLigaAnchor1, topLigaAnchor2], keptLigaAnchor a = true → a.number ≠ some i) →
      (ligaMarksOf [topLigaAnchor1, topLigaAnchor2])[i - 1]? = some []) ∧
    (∀ i (pre post : List NamedAnchor) (a : NamedAnchor),
      [topLigaAnchor1, topLigaAnchor2] = pre ++ a :: post →
      keptLigaAnchor a = true → a.number = some i → a.key = "" →
      (∀ b ∈ post, keptLigaAnchor b = true → b.number ≠ some i) →
      1 ≤ i → i ≤ (ligaMarksOf [topLigaAnchor1, topLigaAnchor2]).length →
      (ligaMarksOf [topLigaAnchor1, topLigaAnchor2])[i - 1]? = some []) :=
  makeMarkToLigaAttachments_components "f_f" [topLigaAnchor1, topLigaAnchor2] [] none
    (by decide) (fun l hl => Option.noConfusion hl) (by decide)

/-! ## `colorGraph` correctness lemmas -/

variable {V : Type}

theorem adjOf_ne_nil_mem_keys [DecidableEq V] {A : List (V × List V)} {v : V}
    (h : adjOf A v ≠ []) : v ∈ A.map Prod.fst := by
  unfold adjOf at h
  cases hd : dictGet A v with
  | none => rw [hd] at h; exact absurd rfl h
  | some ns => exact List.mem_map.mpr ⟨(v, ns), dictGet_mem hd, rfl⟩

theorem greedyStep_map_fst [DecidableEq V] (A : List (V × List V))
    (colors : List (V × Nat)) (w : V) :
    (greedyStep A colors w).map Prod.fst = colors.map Prod.fst ++ [w] := by
  simp [greedyStep]

theorem foldl_greedyStep_map_fst [DecidableEq V] (A : List (V × List V)) (order : List V) :
    ∀ colors0 : List (V × Nat),
      ((order.foldl (greedyStep A) colors0).map Prod.fst) = colors0.map Prod.fst ++ order := by
  induction order with
  | nil => simp
  | cons w rest ih =>
    intro colors0
    rw [List.foldl_cons, ih, greedyStep_map_fst]
    simp

theorem greedy_proper_aux [DecidableEq V] (A : List (V × List V))
    (hsym : ∀ v u, u ∈ adjOf A v → v ∈ adjOf A u) :
    ∀ (order : List V) (colors0 : List (V × Nat)),
      (colors0.map Prod.fst ++ order).Nodup →
      ProperColoring A colors0 →
      ProperColoring A (order.foldl (greedyStep A) colors0) := by
  intro order
  induction order with
  | nil =>
    intro colors0 _ hp
    simpa using hp
  | cons w rest ih =>
    intro colors0 hnd hp
    rw [List.foldl_cons]
    have hstep_fst : (greedyStep A colors0 w).map Prod.fst = colors0.map Prod.fst ++ [w] :=
      greedyStep_map_fst A colors0 w
    apply ih
    · rw [hstep_fst, List.append_assoc]
      simpa using hnd
    · -- properness of `colors0 ++ [(w, c)]`
      intro u cu v cv hu hv huv hadj
      have hnd0 : (colors0.map Prod.fst).Nodup := (List.nodup_append.mp hnd).1
      unfold greedyStep at hu hv
      rcases List.mem_append.mp hu with hu1 | hu1 <;>
        rcases List.mem_append.mp hv with hv1 | hv1 <;>
          clear hu hv
      · exact hp u cu v cv hu1 hv1 huv hadj
      · -- v = w, cv is the fresh colour
        simp only [List.mem_singleton, Prod.mk.injEq] at hv1
        obtain ⟨rfl, rfl⟩ := hv1
        have hlk : dictGet colors0 u = some cu := dictGet_of_mem_nodup hu1 hnd0
        have hmem : cu ∈ (adjOf A v).filterMap (dictGet colors0) :=
          List.mem_filterMap.mpr ⟨u, hadj, hlk⟩
        intro hcc
        rw [hcc] at hmem
        exact (firstAvailable_spec _).1 hmem
      · -- u = w, cu is the fresh colour
        simp only [List.mem_singleton, Prod.mk.injEq] at hu1
        obtain ⟨rfl, rfl⟩ := hu1
        have hadj2 : v ∈ adjOf A u := hsym v u hadj
        have hlk : dictGet colors0 v = some cv := dictGet_of_mem_nodup hv1 hnd0
        have hmem : cv ∈ (adjOf A u).filterMap (dictGet colors0) :=
          List.mem_filterMap.mpr ⟨v, hadj2, hlk⟩
        intro hcc
        rw [← hcc] at hmem
        exact (firstAvailable_spec _).1 hmem
      · simp only [List.mem_singleton, Prod.mk.injEq] at hu1 hv1
        exact absurd (hu1.1.trans hv1.1.symm) huv

theorem greedyColors_proper [DecidableEq V] [LinearOrder V] (A : List (V × List V))
    (hnd : (A.map Prod.fst).Nodup)
    (hsym : ∀ v ∈ A.map Prod.fst, ∀ u ∈ adjOf A v, v ∈ adjOf A u) :
    ProperColoring A (greedyColors A) := by
  unfold greedyColors
  apply greedy_proper_aux
  · intro v u hu
    have hv : v ∈ A.map Prod.fst := adjOf_ne_nil_mem_keys (by
      intro hcon
      rw [hcon] at hu
      simp at hu)
    exact hsym v hv u hu
  · simpa using ((List.perm_insertionSort (· ≤ ·) (A.map Prod.fst)).nodup_iff).mpr hnd
  · intro u cu v cv hu
    simp at hu

theorem mem_greedyColors_of_mem_group [DecidableEq V] {colors : List (V × Nat)}
    {c : Nat} {x : V}
    (hx : x ∈ (colors.filter (fun p => decide (p.2 = c))).map Prod.fst) :
    (x, c) ∈ colors := by
  obtain ⟨p, hp, hp1⟩ := List.mem_map.mp hx
  have hf := List.mem_filter.mp hp
  have hp2 : p.2 = c := by simpa using hf.2
  obtain ⟨p1, p2⟩ := p
  simp only at hp1 hp2
  rw [← hp1, ← hp2]
  exact hf.1

/-- No colour group of `colorGraph` contains two distinct adjacent vertices
(given unique keys and symmetric adjacency). -/
theorem colorGraph_proper [DecidableEq V] [LinearOrder V] (A : List (V × List V))
    (hnd : (A.map Prod.fst).Nodup)
    (hsym : ∀ v ∈ A.map Prod.fst, ∀ u ∈ adjOf A v, v ∈ adjOf A u) :
    ∀ G ∈ colorGraph A, ∀ x ∈ G, ∀ y ∈ G, x ≠ y → x ∉ adjOf A y := by
  intro G hG x hx y hy hxy hadj
  unfold colorGraph at hG
  obtain ⟨c, _, hGeq⟩ := List.mem_map.mp hG
  subst hGeq
  have hxc : (x, c) ∈ greedyColors A := mem_greedyColors_of_mem_group hx
  have hyc : (y, c) ∈ greedyColors A := mem_greedyColors_of_mem_group hy
  exact greedyColors_proper A hnd hsym x c y c hxc hyc hxy hadj rfl

theorem flatMap_congr_mem {α β : Type} {l : List α} {f g : α → List β}
    (h : ∀ a ∈ l, f a = g a) : l.flatMap f = l.flatMap g := by
  induction l with
  | nil => rfl
  | cons a rest ih =>
    rw [List.flatMap_cons, List.flatMap_cons, h a (List.mem_cons_self _ _),
      ih (fun b hb => h b (List.mem_cons_of_mem _ hb))]

theorem flatMap_filter_perm [DecidableEq V] (l : List (V × Nat)) (ks : List Nat)
    (hnd : ks.Nodup) (hcov : ∀ p ∈ l, p.2 ∈ ks) :
    (ks.flatMap (fun c => l.filter (fun p => decide (p.2 = c)))).Perm l := by
  induction ks generalizing l with
  | nil =>
    cases l with
    | nil => simp
    | cons p rest => exact absurd (hcov p (List.mem_cons_self _ _)) (by simp)
  | cons c ks ih =>
    rw [List.flatMap_cons]
    have hcns : c ∉ ks := (List.nodup_cons.mp hnd).1
    have hre : ks.flatMap (fun c' => l.filter (fun p => decide (p.2 = c'))) =
        ks.flatMap (fun c' => (l.filter (fun p => !decide (p.2 = c))).filter
          (fun p => decide (p.2 = c'))) := by
      apply flatMap_congr_mem
      intro c' hc'
      rw [List.filter_filter]
      apply List.filter_congr
      intro p _
      by_cases h : p.2 = c'
      · have hcc : ¬ (c' = c) := fun hcc => hcns (hcc ▸ hc')
        simp [h, hcc]
      · simp [h]
    rw [hre]
    have hperm := ih (l.filter (fun p => !decide (p.2 = c)))
      (List.nodup_cons.mp hnd).2
      (by
        intro p hp
        have hm := List.mem_filter.mp hp
        have h2 := hcov p hm.1
        rcases List.mem_cons.mp h2 with hc2 | hc2
        · exfalso
          have := hm.2
          rw [hc2] at this
          simp at this
        · exact hc2)
    exact (hperm.append_left _).trans (List.filter_append_perm _ l)

/-- The groups of `colorGraph` are a permutation-partition of the keys. -/
theorem colorGraph_flatten_perm [DecidableEq V] [LinearOrder V] (A : List (V × List V)) :
    ((colorGraph A).flatten).Perm (A.map Prod.fst) := by
  unfold colorGraph
  have h1 : ((dedupKeepFirst ((greedyColors A).map Prod.snd)).map
        (fun c => ((greedyColors A).filter (fun p => decide (p.2 = c))).map Prod.fst)).flatten =
      ((dedupKeepFirst ((greedyColors A).map Prod.snd)).flatMap
        (fun c => (greedyColors A).filter (fun p => decide (p.2 = c)))).map Prod.fst := by
    rw [List.flatMap_def, List.map_flatten, List.map_map]
    rfl
  rw [h1]
  have h2 := flatMap_filter_perm (greedyColors A)
    (dedupKeepFirst ((greedyColors A).map Prod.snd))
    (nodup_dedupKeepFirst _)
    (fun p hp => (mem_dedupKeepFirst _ _).mpr (List.mem_map.mpr ⟨p, hp, rfl⟩))
  refine (h2.map Prod.fst).trans ?_
  have h3 : (greedyColors A).map Prod.fst = List.insertionSort (· ≤ ·) (A.map Prod.fst) := by
    unfold greedyColors
    rw [foldl_greedyStep_map_fst]
    simp
  rw [h3]
  exact List.perm_insertionSort (· ≤ ·) (A.map Prod.fst)

theorem dedupKeepFirst_eq_self {α : Type} [DecidableEq α] {l : List α} (h : l.Nodup) :
    dedupKeepFirst l = l :=
  dedupSeen_eq_self h (fun x _ => by simp)

/-- An edgeless adjacency yields a single group holding every vertex (in
sorted order). -/
theorem colorGraph_edgeless [DecidableEq V] [LinearOrder V] (A : List (V × List V))
    (hA : A ≠ []) (h : ∀ e ∈ A, e.2 = []) :
    colorGraph A = [List.insertionSort (· ≤ ·) (A.map Prod.fst)] := by
  have hadj : ∀ v, adjOf A v = [] := by
    intro v
    unfold adjOf
    cases hd : dictGet A v with
    | none => rfl
    | some ns => simpa using h _ (dictGet_mem hd)
  have hcolors : ∀ (order : List V) (colors0 : List (V × Nat)),
      order.foldl (greedyStep A) colors0 = colors0 ++ order.map (fun v => (v, 0)) := by
    intro order
    induction order with
    | nil => simp
    | cons w rest ih =>
      intro colors0
      rw [List.foldl_cons, ih]
      have hstep : greedyStep A colors0 w = colors0 ++ [(w, 0)] := by
        unfold greedyStep
        rw [hadj w]
        rfl
      rw [hstep]
      simp
  have hS : List.insertionSort (· ≤ ·) (A.map Prod.fst) ≠ [] := by
    intro hcon
    have := (List.perm_insertionSort (· ≤ ·) (A.map Prod.fst)).symm
    rw [hcon] at this
    have h0 := this.length_eq
    simp at h0
    exact hA h0
  have hgc : greedyColors A =
      (List.insertionSort (· ≤ ·) (A.map Prod.fst)).map (fun v => (v, 0)) := by
    unfold greedyColors
    rw [hcolors]
    simp
  simp only [colorGraph, hgc]
  obtain ⟨s0, S, hSeq⟩ : ∃ s0 S, List.insertionSort (· ≤ ·) (A.map Prod.fst) = s0 :: S := by
    cases hSl : List.insertionSort (· ≤ ·) (A.map Prod.fst) with
    | nil => exact absurd hSl hS
    | cons s0 S => exact ⟨s0, S, rfl⟩
  rw [hSeq]
  have hsnd : (((s0 :: S).map (fun v => (v, 0))).map Prod.snd) =
      List.replicate (s0 :: S).length 0 := by
    rw [List.map_map]
    induction (s0 :: S) with
    | nil => rfl
    | cons a rest ih => simpa [List.replicate_succ] using ih
  rw [hsnd]
  have hded : dedupKeepFirst (List.replicate (s0 :: S).length 0) = [0] := by
    unfold dedupKeepFirst
    rw [List.length_cons, List.replicate_succ]
    unfold dedupSeen
    rw [if_neg (by simp)]
    rw [dedupSeen_eq_nil (by
      intro x hx
      have := List.eq_of_mem_replicate hx
      simp [this])]
  rw [hded]
  have hfilter : ((s0 :: S).map (fun v => (v, 0))).filter (fun p => decide (p.2 = 0)) =
      (s0 :: S).map (fun v => (v, 0)) := by
    apply List.filter_eq_self.mpr
    intro p hp
    obtain ⟨v, _, hveq⟩ := List.mem_map.mp hp
    rw [← hveq]
    simp
  have hsingle : List.map (fun c => List.map Prod.fst (List.filter (fun p => decide (p.2 = c))
      (List.map (fun v => (v, 0)) (s0 :: S)))) [0] =
      [List.map Prod.fst (List.filter (fun p => decide (p.2 = 0))
        (List.map (fun v => (v, 0)) (s0 :: S)))] := rfl
  rw [hsingle, hfilter, List.map_map]
  simp only [List.cons.injEq, List.map_cons]
  exact ⟨⟨rfl, List.map_id _⟩, trivial⟩

/-! ### Complete graphs -/

theorem completeAdjacency_keys (k : Nat) :
    (completeAdjacency k).map Prod.fst = List.range k := by
  unfold completeAdjacency
  rw [List.map_map]
  exact List.map_id _

theorem adjOf_completeAdjacency {k i : Nat} (hi : i < k) :
    adjOf (completeAdjacency k) i = (List.range k).filter (fun j => decide (j ≠ i)) := by
  unfold adjOf completeAdjacency
  rw [dictGet_map_keyed (fun i => (List.range k).filter (fun j => decide (j ≠ i)))
    (List.nodup_range k) (List.mem_range.mpr hi)]
  rfl

theorem dictGet_diag (m j : Nat) :
    dictGet ((List.range m).map (fun j => (j, j))) j = if j < m then some j else none := by
  by_cases h : j < m
  · rw [if_pos h]
    exact dictGet_map_keyed (fun j => j) (List.nodup_range m) (List.mem_range.mpr h)
  · rw [if_neg h, dictGet_eq_none_iff]
    intro hmem
    obtain ⟨e, he, heq⟩ := List.mem_map.mp hmem
    obtain ⟨j0, hj0, hj0eq⟩ := List.mem_map.mp he
    rw [← hj0eq] at heq
    exact h (heq ▸ List.mem_range.mp hj0)

theorem greedy_complete_step {k m : Nat} (hm : m < k) :
    greedyStep (completeAdjacency k) ((List.range m).map (fun j => (j, j))) m =
      (List.range (m + 1)).map (fun j => (j, j)) := by
  unfold greedyStep
  rw [adjOf_completeAdjacency hm]
  have husedmem : ∀ x, x ∈ ((List.range k).filter (fun j => decide (j ≠ m))).filterMap
      (dictGet ((List.range m).map (fun j => (j, j)))) ↔ x < m := by
    intro x
    constructor
    · intro hx
      obtain ⟨j, _, hjx⟩ := List.mem_filterMap.mp hx
      rw [dictGet_diag] at hjx
      split at hjx
      · cases hjx
        assumption
      · cases hjx
    · intro hx
      refine List.mem_filterMap.mpr ⟨x, List.mem_filter.mpr
        ⟨List.mem_range.mpr (by omega), by simp; omega⟩, ?_⟩
      rw [dictGet_diag, if_pos hx]
  have hfa : firstAvailable (((List.range k).filter (fun j => decide (j ≠ m))).filterMap
      (dictGet ((List.range m).map (fun j => (j, j))))) = m := by
    apply firstAvailable_eq
    · intro hmem
      have := (husedmem m).mp hmem
      omega
    · intro j hj
      exact (husedmem j).mpr hj
  rw [hfa, List.range_succ]
  simp

theorem greedy_complete (k : Nat) : ∀ (n m : Nat), m + n ≤ k →
    (List.range' m n).foldl (greedyStep (completeAdjacency k))
      ((List.range m).map (fun j => (j, j))) = (List.range (m + n)).map (fun j => (j, j)) := by
  intro n
  induction n with
  | zero =>
    intro m _
    simp
  | succ n ih =>
    intro m h
    rw [List.range'_succ, List.foldl_cons, greedy_complete_step (by omega), ih (m + 1) (by omega)]
    have : m + 1 + n = m + (n + 1) := by omega
    rw [this]

/-- The greedy colouring of the complete graph on `k` vertices assigns each
vertex its own colour, so exactly `k` groups result. -/
theorem colorGraph_complete_length (k : Nat) :
    (colorGraph (completeAdjacency k)).length = k := by
  unfold colorGraph
  have hsorted : List.insertionSort (· ≤ ·) ((completeAdjacency k).map Prod.fst) =
      List.range k := by
    rw [completeAdjacency_keys]
    exact List.Sorted.insertionSort_eq (List.sorted_le_range k)
  have hcolors : greedyColors (completeAdjacency k) = (List.range k).map (fun j => (j, j)) := by
    unfold greedyColors
    rw [hsorted]
    have h2 := greedy_complete k k 0 (by omega)
    simp only [List.range_zero, List.map_nil, Nat.zero_add] at h2
    rw [List.range_eq_range'] at h2 ⊢
    exact h2
  simp only [colorGraph, hcolors]
  have hsnd : (((List.range k).map (fun j => (j, j))).map Prod.snd) = List.range k := by
    rw [List.map_map]
    exact List.map_id _
  rw [hsnd, dedupKeepFirst_eq_self (List.nodup_range k)]
  simp

/-- C2: for every adjacency input whose keys are unique (every vertex,
including isolated ones, appears as a key) and whose adjacency is symmetric,
`colorGraph` partitions the vertex set (the concatenation of the groups is a
permutation of the keys, hence with unique keys every vertex lies in exactly
one group) with no two adjacent vertices sharing a group; an edgeless
adjacency yields one single group holding all vertices, and the complete
graph on `k` vertices yields exactly `k` groups. -/
theorem colorGraph_correct :
    (∀ (V : Type) [DecidableEq V] [LinearOrder V] (A : List (V × List V)),
      (A.map Prod.fst).Nodup →
      (∀ v ∈ A.map Prod.fst, ∀ u ∈ adjOf A v, v ∈ adjOf A u) →
      ((colorGraph A).flatten.Perm (A.map Prod.fst) ∧
        ∀ G ∈ colorGraph A, ∀ x ∈ G, ∀ y ∈ G, x ≠ y → x ∉ adjOf A y)) ∧
    (∀ (V : Type) [DecidableEq V] [LinearOrder V] (A : List (V × List V)),
      A ≠ [] → (∀ e ∈ A, e.2 = []) →
      colorGraph A = [List.insertionSort (· ≤ ·) (A.map Prod.fst)]) ∧
    (∀ k : Nat, (colorGraph (completeAdjacency k)).length = k) := by
  refine ⟨?_, ?_, ?_⟩
  · intro V _ _ A hnd hsym
    exact ⟨colorGraph_flatten_perm A, colorGraph_proper A hnd hsym⟩
  · intro V _ _ A hA h
    exact colorGraph_edgeless A hA h
  · exact colorGraph_complete_length

/-- Witness for `colorGraph_correct`: a three-vertex graph with one edge and
an isolated vertex, a one-vertex edgeless graph, and the complete graph on
three vertices. -/
theorem colorGraph_correct_witness :
    ((colorGraph [("a", ["b"]), ("b", ["a"]), ("c", [])]).flatten.Perm
      (([("a", ["b"]), ("b", ["a"]), ("c", [])] : List (String × List String)).map Prod.fst) ∧
      ∀ G ∈ colorGraph [("a", ["b"]), ("b", ["a"]), ("c", [])], ∀ x ∈ G, ∀ y ∈ G, x ≠ y →
        x ∉ adjOf [("a", ["b"]), ("b", ["a"]), ("c", [])] y) ∧
    colorGraph [(("x" : String), ([] : List String))] =
      [List.insertionSort (· ≤ ·) ([(("x" : String), ([] : List String))].map Prod.fst)] ∧
    (colorGraph (completeAdjacency 3)).length = 3 :=
  ⟨colorGraph_correct.1 String [("a", ["b"]), ("b", ["a"]), ("c", [])] (by decide) (by decide),
   colorGraph_correct.2.1 String [("x", [])] (by decide) (by decide),
   colorGraph_correct.2.2 3⟩

/-! ## C3: no mark glyph under two mark classes within one lookup -/

theorem filterPos_anchors {inc : NamedAnchor → Bool} {att0 att : MarkPos}
    (h : att0.filterPos inc = some att) :
    ∀ a ∈ att.anchors, a ∈ att0.anchors ∧ inc a = true := by
  cases att0 with
  | base n ms =>
    simp only [MarkPos.filterPos] at h
    split at h
    · cases h
    · rw [Option.some.injEq] at h
      subst h
      intro a ha
      simp only [MarkPos.anchors] at ha ⊢
      have hm := List.mem_filter.mp ha
      exact ⟨hm.1, hm.2⟩
  | liga n ms =>
    simp only [MarkPos.filterPos] at h
    split at h
    · cases h
    · rw [Option.some.injEq] at h
      subst h
      intro a ha
      simp only [MarkPos.anchors] at ha ⊢
      obtain ⟨comp2, hc2, ha2⟩ := List.mem_flatten.mp ha
      obtain ⟨comp, hc, hceq⟩ := List.mem_map.mp hc2
      rw [← hceq] at ha2
      have hm := List.mem_filter.mp ha2
      exact ⟨List.mem_flatten.mpr ⟨comp, hc, hm.1⟩, hm.2⟩

theorem mem_classVertices {atts : List MarkPos} {a : NamedAnchor} {g : String}
    (ha : a ∈ allAnchors atts) (hg : g ∈ anchorClassGlyphs a) :
    anchorClassName a ∈ classVertices atts := by
  rw [classVertices, mem_dedupKeepFirst]
  refine List.mem_map.mpr ⟨a, List.mem_filter.mpr ⟨ha, ?_⟩, rfl⟩
  have hne : anchorClassGlyphs a ≠ [] := by
    intro hnil
    rw [hnil] at hg
    exact absurd hg (List.not_mem_nil g)
  simp [hne]

theorem adjacencyOf_keys (atts : List MarkPos) :
    (adjacencyOf atts).map Prod.fst = classVertices atts := by
  unfold adjacencyOf
  rw [List.map_map]
  exact List.map_id _

theorem classVertices_nodup (atts : List MarkPos) : (classVertices atts).Nodup :=
  nodup_dedupKeepFirst _

theorem adjOf_adjacencyOf {atts : List MarkPos} {v : String} (hv : v ∈ classVertices atts) :
    adjOf (adjacencyOf atts) v =
      (classVertices atts).filter (fun u => decide (u ≠ v) && conflictB atts u v) := by
  unfold adjOf adjacencyOf
  rw [dictGet_map_keyed _ (classVertices_nodup atts) hv]
  rfl

theorem conflictB_intro {atts : List MarkPos} {a1 a2 : NamedAnchor} {g : String}
    (h1 : a1 ∈ allAnchors atts) (h2 : a2 ∈ allAnchors atts)
    (hg1 : g ∈ anchorClassGlyphs a1) (hg2 : g ∈ anchorClassGlyphs a2) :
    conflictB atts (anchorClassName a1) (anchorClassName a2) = true := by
  unfold conflictB
  rw [List.any_eq_true]
  refine ⟨a1, h1, ?_⟩
  rw [Bool.and_eq_true]
  refine ⟨by simp, ?_⟩
  rw [List.any_eq_true]
  refine ⟨a2, h2, ?_⟩
  rw [Bool.and_eq_true]
  refine ⟨by simp, ?_⟩
  rw [List.any_eq_true]
  exact ⟨g, hg1, by simp [hg2]⟩

theorem conflictB_symm {atts : List MarkPos} {u v : String}
    (h : conflictB atts u v = true) : conflictB atts v u = true := by
  unfold conflictB at h ⊢
  rw [List.any_eq_true] at h
  obtain ⟨a1, h1, hand1⟩ := h
  rw [Bool.and_eq_true] at hand1
  obtain ⟨hn1, hrest1⟩ := hand1
  rw [List.any_eq_true] at hrest1
  obtain ⟨a2, h2, hand2⟩ := hrest1
  rw [Bool.and_eq_true] at hand2
  obtain ⟨hn2, hrest2⟩ := hand2
  rw [List.any_eq_true] at hrest2
  obtain ⟨g, hg1, hg2⟩ := hrest2
  rw [List.any_eq_true]
  refine ⟨a2, h2, ?_⟩
  rw [Bool.and_eq_true]
  refine ⟨hn2, ?_⟩
  rw [List.any_eq_true]
  refine ⟨a1, h1, ?_⟩
  rw [Bool.and_eq_true]
  refine ⟨hn1, ?_⟩
  rw [List.any_eq_true]
  refine ⟨g, ?_, by simp [hg1]⟩
  simpa using hg2

theorem adjacencyOf_symm (atts : List MarkPos) :
    ∀ v ∈ (adjacencyOf atts).map Prod.fst,
      ∀ u ∈ adjOf (adjacencyOf atts) v, v ∈ adjOf (adjacencyOf atts) u := by
  intro v hv u hu
  rw [adjacencyOf_keys] at hv
  rw [adjOf_adjacencyOf hv] at hu
  have hmem := List.mem_filter.mp hu
  have huV : u ∈ classVertices atts := hmem.1
  have hand := hmem.2
  rw [Bool.and_eq_true] at hand
  rw [adjOf_adjacencyOf huV]
  refine List.mem_filter.mpr ⟨hv, ?_⟩
  rw [Bool.and_eq_true]
  constructor
  · simp only [decide_eq_true_eq] at hand ⊢
    exact fun hvu => hand.1 hvu.symm
  · exact conflictB_symm hand.2

/-- C3: every lookup produced by `_groupAttachments` satisfies the
LookupGroup invariant — within one lookup, no single mark glyph appears
under two different mark classes — both with `groupMarkClasses` enabled
(graph colouring) and disabled (one class per lookup). -/
theorem groupAttachments_no_overlap (gmc : Bool) (ctx : List (String × MarkClass))
    (atts : List MarkPos) :
    ∀ lk ∈ groupAttachments gmc ctx atts, ∀ att1 ∈ lk, ∀ att2 ∈ lk,
      ∀ a1 ∈ att1.anchors, ∀ a2 ∈ att2.anchors,
      ∀ g, g ∈ anchorClassGlyphs a1 → g ∈ anchorClassGlyphs a2 →
      anchorClassName a1 = anchorClassName a2 := by
  intro lk hlk att1 h1 att2 h2 a1 ha1 a2 ha2 g hg1 hg2
  unfold groupAttachments at hlk
  obtain ⟨mcs, hmcs, hlkeq⟩ := List.mem_map.mp hlk
  subst hlkeq
  obtain ⟨att01, hatt01, hf1⟩ := List.mem_filterMap.mp h1
  obtain ⟨att02, hatt02, hf2⟩ := List.mem_filterMap.mp h2
  have hA1 := filterPos_anchors hf1 a1 ha1
  have hA2 := filterPos_anchors hf2 a2 ha2
  have hin1 : anchorClassName a1 ∈ mcs := by simpa using hA1.2
  have hin2 : anchorClassName a2 ∈ mcs := by simpa using hA2.2
  have hall1 : a1 ∈ allAnchors atts := List.mem_flatMap.mpr ⟨att01, hatt01, hA1.1⟩
  have hall2 : a2 ∈ allAnchors atts := List.mem_flatMap.mpr ⟨att02, hatt02, hA2.1⟩
  by_cases hnames : anchorClassName a1 = anchorClassName a2
  · exact hnames
  exfalso
  cases gmc with
  | false =>
    rw [if_neg (by simp)] at hmcs
    unfold groupedMarkClassesDefault at hmcs
    obtain ⟨e, _, hmeq⟩ := List.mem_map.mp hmcs
    rw [← hmeq] at hin1 hin2
    rw [List.mem_singleton] at hin1 hin2
    exact hnames (hin1.trans hin2.symm)
  | true =>
    rw [if_pos rfl] at hmcs
    unfold groupMarkClassesFn at hmcs
    have hmcs2 : mcs ∈ (colorGraph (adjacencyOf atts)).map (List.insertionSort (· ≤ ·)) :=
      (List.perm_insertionSort _ _).mem_iff.mp hmcs
    obtain ⟨G0, hG0, hGeq⟩ := List.mem_map.mp hmcs2
    rw [← hGeq] at hin1 hin2
    have hin1G : anchorClassName a1 ∈ G0 := (List.perm_insertionSort _ _).mem_iff.mp hin1
    have hin2G : anchorClassName a2 ∈ G0 := (List.perm_insertionSort _ _).mem_iff.mp hin2
    have hproper := colorGraph_proper (adjacencyOf atts)
      (by rw [adjacencyOf_keys]; exact classVertices_nodup atts)
      (adjacencyOf_symm atts)
    have hadj : anchorClassName a1 ∈ adjOf (adjacencyOf atts) (anchorClassName a2) := by
      rw [adjOf_adjacencyOf (mem_classVertices hall2 hg2)]
      refine List.mem_filter.mpr ⟨mem_classVertices hall1 hg1, ?_⟩
      rw [Bool.and_eq_true]
      exact ⟨by simp [hnames], conflictB_intro hall1 hall2 hg1 hg2⟩
    exact hproper G0 hG0 _ hin1G _ hin2G hnames hadj

/-- Witness for `groupAttachments_no_overlap`: the disabled-grouping branch
on two base attachments whose anchors share the mark class `MC_top` (member
glyph `acutecomb`). -/
theorem groupAttachments_no_overlap_witness :
    anchorClassName anchorBaseTop = anchorClassName anchorBaseTopB :=
  groupAttachments_no_overlap false sampleCtx
    [MarkPos.base "a" [anchorBaseTop], MarkPos.base "b" [anchorBaseTopB]]
    [MarkPos.base "a" [anchorBaseTop], MarkPos.base "b" [anchorBaseTopB]] (by decide)
    (MarkPos.base "a" [anchorBaseTop]) (by decide)
    (MarkPos.base "b" [anchorBaseTopB]) (by decide)
    anchorBaseTop (by decide) anchorBaseTopB (by decide)
    "acutecomb" (by decide) (by decide)

/-! ## C5: order of the one-lookup-per-class default branch -/

/-- C5 counterexample: with grouping disabled, the lookups follow the sorted
anchor keys of `context.markClasses`, not the class names.  For keys
`top < topA` bound to classes `MC_top_1` (a clash-suffixed split class) and
`MC_topA`, the lookup for `MC_top_1` comes first although
`"MC_topA" < "MC_top_1"` lexicographically — refuting "ordered
lexicographically by mark class name". -/
theorem groupAttachments_nameOrder_cex :
    groupAttachments false cexCtx
        [MarkPos.base "x" [anchorSplit], MarkPos.base "y" [anchorTopA]] =
      [[MarkPos.base "x" [anchorSplit]], [MarkPos.base "y" [anchorTopA]]] ∧
    ("MC_topA" : String) < "MC_top_1" ∧
    groupedMarkClassesDefault cexCtx = [["MC_top_1"], ["MC_topA"]] ∧
    ¬ List.Sorted (· ≤ ·) ["MC_top_1", ("MC_topA" : String)] := by
  refine ⟨by decide, ?_, by decide, ?_⟩
  · rw [String.lt_iff_toList_lt]
    decide
  · intro hs
    have h12 : ("MC_top_1" : String) ≤ "MC_topA" :=
      (List.pairwise_cons.mp hs).1 _ (List.mem_cons_self _ _)
    rw [String.le_iff_toList_le] at h12
    revert h12
    decide

/-- The executable comparator `strLE` is the lexicographic `String` order. -/
theorem strLE_iff_le (a b : String) : strLE a b = true ↔ a ≤ b := by
  rw [strLE, decide_eq_true_eq, String.le_iff_toList_le]
  rfl

/-- C5 (amended): with `groupMarkClasses` disabled, `_groupAttachments`
produces exactly one lookup per mark class of the context, ordered by the
classes' *anchor keys* (the sorted dict keys, `strLE` being the
lexicographic string order); this coincides with lexicographic class-name
order whenever each class name is the prefixed key (in particular `top.alt`
sorts after `top`), but not when a class name has diverged from its key. -/
theorem groupAttachments_default_perClass (ctx : List (String × MarkClass))
    (atts : List MarkPos) :
    (groupAttachments false ctx atts).length = ctx.length ∧
    groupAttachments false ctx atts =
      (List.insertionSort (fun a b => strLE a.1 b.1 = true) ctx).map
        (fun e => atts.filterMap (fun att =>
          att.filterPos (fun a => decide (anchorClassName a ∈ [e.2.name])))) ∧
    List.Sorted (fun (a b : String × MarkClass) => a.1 ≤ b.1)
      (List.insertionSort (fun a b => strLE a.1 b.1 = true) ctx) ∧
    groupedMarkClassesDefault
        [("top", ⟨"MC_top", []⟩), ("top.alt", ⟨"MC_top.alt", []⟩)] =
      [["MC_top"], ["MC_top.alt"]] := by
  refine ⟨?_, ?_, ?_, by decide⟩
  · unfold groupAttachments groupedMarkClassesDefault
    simp only [Bool.false_eq_true, if_false, List.length_map]
    exact (List.perm_insertionSort _ _).length_eq
  · unfold groupAttachments groupedMarkClassesDefault
    simp only [Bool.false_eq_true, if_false, List.map_map]
    rfl
  · haveI h1 : IsTotal (String × MarkClass) (fun a b => strLE a.1 b.1 = true) :=
      ⟨fun a b => by
        rw [strLE_iff_le, strLE_iff_le]
        exact le_total a.1 b.1⟩
    haveI h2 : IsTrans (String × MarkClass) (fun a b => strLE a.1 b.1 = true) :=
      ⟨fun a b c hab hbc => by
        rw [strLE_iff_le] at hab hbc ⊢
        exact le_trans hab hbc⟩
    have hsorted := List.sorted_insertionSort
      (fun (a b : String × MarkClass) => strLE a.1 b.1 = true) ctx
    refine hsorted.imp ?_
    intro a b hab
    exact (strLE_iff_le a.1 b.1).mp hab

end MarkFeature
